import Mathlib

/-!
Verification of the Word Ladder II visualizer's algorithmic core
(`src/App.tsx`): wildcard-pattern neighbor index, layered BFS engine
producing per-level frames, and the backtracking path reconstructor.

Words are modelled as `String` (character lists). JS `Set` objects are
modelled as insertion-ordered duplicate-free lists (`insertUnique` is
`Set.add`); JS objects used as string-keyed maps (`patternBuckets`,
`parents`) are modelled as association lists in key-insertion order.
The two unbounded loops of the source (the BFS `while` loop and the
recursive `dfs`) take an explicit fuel argument; the top-level wrappers
supply a fuel that is proved sufficient (see the termination theorems),
so the wrappers compute exactly what the source computes.
`String.prototype.localeCompare` on the joined path strings is modelled
as the character-wise (code-point) order on strings, which agrees with
every locale's collation on the equal-shape lowercase strings compared
here, and `Array.prototype.sort` (a stable sort per the ECMAScript
specification) as a stable merge sort.
-/

namespace WordLadder

/-- wildcard marker used in pattern keys (the `"*"` of the source). -/
def star : Char := '*'

abbrev Word := String

/-- model of JS `String.prototype.toLowerCase`, character-wise. -/
def toLowerCase (s : Word) : Word := ⟨s.data.map Char.toLower⟩

/-- model of JS `String.prototype.trim`: strip whitespace at both ends. -/
def trimWS (s : Word) : Word :=
  ⟨((s.data.dropWhile Char.isWhitespace).reverse.dropWhile Char.isWhitespace).reverse⟩

/-- model of JS `Set.prototype.add` on an insertion-ordered set. -/
def insertUnique (l : List Word) (a : Word) : List Word :=
  if a ∈ l then l else l ++ [a]

/-- the pattern `w.slice(0, i) + "*" + w.slice(i + 1)` of the source. -/
def patternKey (w : Word) (i : Nat) : Word :=
  ⟨w.data.take i ++ star :: w.data.drop (i + 1)⟩

/-- the `words` memo: trim and lowercase each token, drop empties,
deduplicate keeping first occurrences, then append the (lowercased)
end word if absent. -/
def words (toks : List Word) (endWord : Word) : List Word :=
  let set := ((toks.map (fun w => toLowerCase (trimWS w))).filter
      (fun w => w ≠ "")).foldl insertUnique []
  if toLowerCase endWord ∈ set then set else set ++ [toLowerCase endWord]

/-- string-keyed map from wildcard pattern to array of words, in key
insertion order (the JS object `buckets`). -/
abbrev Buckets := List (Word × List Word)

/-- model of `(buckets[key] ||= []).push(w)`. -/
def bucketsAdd : Buckets → Word → Word → Buckets
  | [], k, w => [(k, [w])]
  | (k', l) :: rest, k, w =>
    if k' = k then (k', l ++ [w]) :: rest else (k', l) :: bucketsAdd rest k w

/-- model of `buckets[key] || []`. -/
def bucketsGet : Buckets → Word → List Word
  | [], _ => []
  | (k', l) :: rest, k => if k' = k then l else bucketsGet rest k

/-- the inner loop of `patternBuckets`: push `w` into its `wordLen`
pattern buckets, one per letter position. -/
def addToBuckets (b : Buckets) (w : Word) (wordLen : Nat) : Buckets :=
  (List.range wordLen).foldl (fun b i => bucketsAdd b (patternKey w i) w) b

/-- the `patternBuckets` memo: bucket every dictionary word of length
`wordLen`, then also bucket the lowercased begin word. -/
def patternBuckets (ws : List Word) (wordLen : Nat) (beginWord : Word) : Buckets :=
  let b := ws.foldl
    (fun b w => if w.length = wordLen then addToBuckets b w wordLen else b) []
  if beginWord.length = wordLen then addToBuckets b (toLowerCase beginWord) wordLen else b

/-- the `getNeighbors` function: probe the `wordLen` patterns of `w`,
collecting bucket members other than `w` itself that have `w`'s length,
into an insertion-ordered set. -/
def getNeighbors (buckets : Buckets) (wordLen : Nat) (w : Word) : List Word :=
  (List.range wordLen).foldl
    (fun res i =>
      (bucketsGet buckets (patternKey w i)).foldl
        (fun res v => if v ≠ w ∧ v.length = w.length then insertUnique res v else res)
        res)
    []

/-- child-to-parents map (the JS `Parents = Record<string, Set<string>>`),
as an association list in key insertion order. -/
abbrev Parents := List (Word × List Word)

/-- map lookup, `parents[c]` as an option. -/
def parentsGet : Parents → Word → Option (List Word)
  | [], _ => none
  | (k, v) :: rest, c => if k = c then some v else parentsGet rest c

/-- model of `if (!parents[nei]) parents[nei] = new Set(); parents[nei].add(node)`. -/
def parentsAdd : Parents → Word → Word → Parents
  | [], c, p => [(c, [p])]
  | (k, v) :: rest, c, p =>
    if k = c then (k, insertUnique v p) :: rest else (k, v) :: parentsAdd rest c p

/-- the inner neighbor loop of the BFS: for each neighbor of `node` not
in `visited`, record `node` as a parent and add it to the `next` set. -/
def expandNode (visited : List Word) (node : Word) :
    List Word → List Word × Parents → List Word × Parents
  | [], st => st
  | nei :: rest, st =>
    if nei ∈ visited then expandNode visited node rest st
    else expandNode visited node rest (insertUnique st.1 nei, parentsAdd st.2 nei node)

/-- the frontier loop of the BFS: expand every node of the frontier
against the visited set as of the start of the level. -/
def expandFrontier (gn : Word → List Word) (visited : List Word) :
    List Word → List Word × Parents → List Word × Parents
  | [], st => st
  | node :: rest, st => expandFrontier gn visited rest (expandNode visited node (gn node) st)

/-- one immutable BFS frame per level (the `BFSFrame` type of the source). -/
structure BFSFrame where
  level : Nat
  frontier : List Word
  nextFrontier : List Word
  visitedSnapshot : List Word
  parentsSnapshot : Parents
  found : Bool
deriving DecidableEq, Repr

/-- the BFS `while` loop, with explicit fuel: expand the frontier, mark
the discoveries visited after the whole level, emit a frame, and stop
when the target was discovered or the frontier empties. -/
def bfsLoop (gn : Word → List Word) (tgt : Word) :
    Nat → List Word → Parents → List Word → Nat → List BFSFrame
  | 0, _, _, _, _ => []
  | fuel + 1, visited, parents, frontier, level =>
    if frontier.isEmpty then []
    else
      let st := expandFrontier gn visited frontier ([], parents)
      let visited' := st.1.foldl insertUnique visited
      let frame : BFSFrame := ⟨level, frontier, st.1, visited', st.2, st.1.contains tgt⟩
      if st.1.contains tgt then [frame]
      else frame :: bfsLoop gn tgt fuel visited' st.2 st.1 (level + 1)

/-- the `frames` memo: early-exit on a length mismatch, otherwise run the
layered BFS from the lowercased begin word. -/
def frames (beginWord endWord : Word) (ws : List Word) : List BFSFrame :=
  let src := toLowerCase beginWord
  let tgt := toLowerCase endWord
  if src.length ≠ tgt.length then []
  else bfsLoop (getNeighbors (patternBuckets ws beginWord.length beginWord) beginWord.length)
    tgt (ws.length + 2) [src] [] [src] 0

/-- the `finalParents` memo: parents snapshot of the last frame, empty
when there are no frames. -/
def finalParents (fs : List BFSFrame) : Parents :=
  match fs.getLast? with
  | none => []
  | some f => f.parentsSnapshot

/-- the recursive backtracking `dfs` of `allPaths`, with explicit fuel:
from `w`, emit the reversed path at the source, otherwise recurse into
every parent of `w` not already on the current path. -/
def dfs (parents : Parents) (src : Word) :
    Nat → List Word → List Word → Word → List (List Word)
  | 0, _, _, _ => []
  | fuel + 1, path, visiting, w =>
    if w = src then [path.reverse]
    else
      match parentsGet parents w with
      | none => []
      | some ps =>
        (ps.map (fun p =>
          if p ∈ visiting then []
          else dfs parents src fuel (path ++ [p]) (visiting ++ [p]) p)).flatten

/-- the `p.join("->")` sort key of the source. -/
def joinArrow : List Word → List Char
  | [] => []
  | [w] => w.data
  | w :: rest => w.data ++ '-' :: '>' :: joinArrow rest

/-- code-point lexicographic comparison of character lists, the model of
`localeCompare(...) <= 0` on the joined keys. -/
def lexLe : List Char → List Char → Bool
  | [], _ => true
  | _ :: _, [] => false
  | a :: as, b :: bs => if a = b then lexLe as bs else decide (a < b)

/-- comparator relation on paths: joined key of `a` at most that of `b`. -/
def pathLe (a b : List Word) : Prop := lexLe (joinArrow a) (joinArrow b) = true

instance : DecidableRel pathLe := fun _ _ => instDecidableEqBool _ _

/-- the final `res.sort((a, b) => a.join("->").localeCompare(b.join("->")))`:
a stable sort by the joined-string key (JS `Array.prototype.sort` is
stable, so any stable sort is an exact model; insertion sort is stable). -/
def sortPaths (res : List (List Word)) : List (List Word) :=
  List.insertionSort pathLe res

/-- fuel supplied to `dfs`; proved sufficient below (the recursion depth
is bounded by the number of distinct words in the parents map, since each
recursive call adds a fresh word to the visiting set). -/
def dfsBound (parents : Parents) : Nat :=
  (parents.map (fun e => e.2.length)).sum + parents.length + 2

/-- the `allPaths` memo: empty when the end word has no parents entry,
otherwise every backtracking result, sorted. -/
def allPaths (beginWord endWord : Word) (ws : List Word) : List (List Word) :=
  let fp := finalParents (frames beginWord endWord ws)
  let src := toLowerCase beginWord
  let tgt := toLowerCase endWord
  match parentsGet fp tgt with
  | none => []
  | some _ => sortPaths (dfs fp src (dfsBound fp) [tgt] [tgt] tgt)

/-- full pipeline from raw word-list tokens: normalize the dictionary,
then run the BFS engine. -/
def framesOfInput (beginWord endWord : Word) (toks : List Word) : List BFSFrame :=
  frames beginWord endWord (words toks endWord)

/-- full pipeline from raw word-list tokens to the sorted path list. -/
def allPathsOfInput (beginWord endWord : Word) (toks : List Word) : List (List Word) :=
  allPaths beginWord endWord (words toks endWord)

/-! ### Specification-side definitions used by the theorems -/

/-- frontier list of BFS level `k`: level 0 is the singleton begin word,
level k+1 is the `nextFrontier` discovered while expanding level k. -/
def histFrontier (hist : List (List Word)) (k : Nat) : List Word := hist.getD k []

/-- invariants of the sequence of BFS frontier lists: level 0 is the
source, all levels are mutually duplicate-free, and each next level
consists exactly of the unvisited neighbors of the previous level. -/
structure LevelsOK (gn : Word → List Word) (src : Word)
    (hist : List (List Word)) : Prop where
  zero : histFrontier hist 0 = [src]
  nodup : hist.flatten.Nodup
  step : ∀ j, j + 1 < hist.length → ∀ c, c ∈ histFrontier hist (j + 1) ↔
    (c ∉ (hist.take (j + 1)).flatten ∧ ∃ p ∈ histFrontier hist j, c ∈ gn p)

/-- canonical description of a parents map relative to the frontier
sequence: an entry exists exactly for the words of levels 1 up to m-1,
and its value is the previous frontier filtered to the actual parents. -/
structure ParentsCanon (gn : Word → List Word) (hist : List (List Word))
    (m : Nat) (parents : Parents) : Prop where
  sound : ∀ c ps, parentsGet parents c = some ps →
    ∃ j, 0 < j ∧ j < m ∧ j < hist.length ∧ c ∈ histFrontier hist j ∧
      ps = (histFrontier hist (j - 1)).filter (fun p => decide (c ∈ gn p))
  complete : ∀ j, 0 < j → j < m → j < hist.length → ∀ c ∈ histFrontier hist j,
    parentsGet parents c ≠ none

/-- full description of the BFS frame emitted for level `j`. -/
def FrameSpec (gn : Word → List Word) (tgt : Word) (hist : List (List Word))
    (j : Nat) (f : BFSFrame) : Prop :=
  f.level = j ∧ f.frontier = histFrontier hist j ∧
    f.nextFrontier = histFrontier hist (j + 1) ∧
    f.visitedSnapshot = (hist.take (j + 2)).flatten ∧
    f.found = (histFrontier hist (j + 1)).contains tgt ∧
    ParentsCanon gn hist (j + 2) f.parentsSnapshot

/-- index of the first frame whose found flag is set. -/
def foundIdx (fs : List BFSFrame) : Nat := fs.findIdx (fun f => f.found)

/-- reading of the spec: one transformation step changes exactly one
letter, that is, the words have equal length and differ in exactly one
position. -/
def SpecStep (u v : Word) : Prop :=
  u.data.length = v.data.length ∧
    ∃ i < u.data.length, u.data[i]? ≠ v.data[i]? ∧
      ∀ j < u.data.length, j ≠ i → u.data[j]? = v.data[j]?

/-- reading of the spec: a transformation sequence from B to E where every
word after the first is a dictionary word. -/
def SpecSeq (B E : Word) (dict : List Word) (P : List Word) : Prop :=
  P.head? = some B ∧ P.getLast? = some E ∧ List.Chain' SpecStep P ∧
    ∀ w ∈ P.tail, w ∈ dict

/-- a chain through the parents map: `Ladder parents src l w` means `l`
lists the words of a backtracking chain from `src` down to `w`, following
one recorded parent edge per step. -/
inductive Ladder (parents : Parents) (src : Word) : List Word → Word → Prop where
  | base : Ladder parents src [src] src
  | step : ∀ {l p c ps}, Ladder parents src l p → parentsGet parents c = some ps →
      p ∈ ps → Ladder parents src (l ++ [c]) c

/-- a word sequence that walks the engine's neighbor relation from the
source to the target. -/
def IsLadderSeq (gn : Word → List Word) (src tgt : Word) (q : List Word) : Prop :=
  q.head? = some src ∧ q.getLast? = some tgt ∧ List.Chain' (fun u v => v ∈ gn u) q

/-- the neighbor function the engine runs with. -/
def gnOf (beginWord : Word) (ws : List Word) : Word → List Word :=
  getNeighbors (patternBuckets ws beginWord.length beginWord) beginWord.length

-- Scenario sanity checks (spec §8).
example : allPaths "hit" "cog" ["hot", "dot", "dog", "lot", "log", "cog"] =
    [["hit", "hot", "dot", "dog", "cog"], ["hit", "hot", "lot", "log", "cog"]] := by
  decide

example : allPaths "cat" "dog" ["cat", "cot", "cog", "dog"] =
    [["cat", "cot", "cog", "dog"]] := by decide

example : allPaths "dog" "cat" ["dog", "cot", "cat"] = [] := by decide

example : frames "hit" "code" ["hot"] = [] := by decide

/-! ### Basic lemmas on the set and string models -/

@[simp]
theorem mem_insertUnique {l : List Word} {a b : Word} :
    b ∈ insertUnique l a ↔ b ∈ l ∨ b = a := by
  unfold insertUnique
  split
  · constructor
    · exact fun h => Or.inl h
    · rintro (h | rfl)
      · exact h
      · assumption
  · simp

theorem nodup_insertUnique {l : List Word} (h : l.Nodup) (a : Word) :
    (insertUnique l a).Nodup := by
  unfold insertUnique
  split
  · exact h
  · simpa [List.nodup_append] using ⟨h, by assumption⟩

theorem insertUnique_eq_append {l : List Word} {a : Word} (h : a ∉ l) :
    insertUnique l a = l ++ [a] := by
  simp [insertUnique, h]

@[simp]
theorem mem_foldl_insertUnique {xs : List Word} {acc : List Word} {b : Word} :
    b ∈ xs.foldl insertUnique acc ↔ b ∈ acc ∨ b ∈ xs := by
  induction xs generalizing acc with
  | nil => simp
  | cons x xs ih => simp [ih, or_assoc]

theorem nodup_foldl_insertUnique {xs : List Word} {acc : List Word} (h : acc.Nodup) :
    (xs.foldl insertUnique acc).Nodup := by
  induction xs generalizing acc with
  | nil => exact h
  | cons x xs ih => exact ih (nodup_insertUnique h x)

theorem foldl_insertUnique_eq_append {xs acc : List Word}
    (hd : ∀ a ∈ xs, a ∉ acc) (hn : xs.Nodup) :
    xs.foldl insertUnique acc = acc ++ xs := by
  induction xs generalizing acc with
  | nil => simp
  | cons x xs ih =>
    have hx : x ∉ acc := hd x (by simp)
    rw [List.foldl_cons, insertUnique_eq_append hx, ih, List.append_assoc]
    · simp
    · intro a ha
      simp only [List.mem_append, List.mem_singleton]
      rintro (h | rfl)
      · exact hd a (by simp [ha]) h
      · exact (List.nodup_cons.1 hn).1 ha
    · exact (List.nodup_cons.1 hn).2

@[simp]
theorem data_toLowerCase (s : Word) : (toLowerCase s).data = s.data.map Char.toLower := rfl

@[simp]
theorem length_toLowerCase (s : Word) : (toLowerCase s).length = s.length := by
  show (s.data.map Char.toLower).length = s.data.length
  exact List.length_map _ _

@[simp]
theorem data_patternKey (w : Word) (i : Nat) :
    (patternKey w i).data = w.data.take i ++ star :: w.data.drop (i + 1) := rfl

/-! ### Pattern key lemmas -/

theorem length_patternKey {w : Word} {i : Nat} (hi : i < w.data.length) :
    (patternKey w i).data.length = w.data.length := by
  simp only [data_patternKey, List.length_append, List.length_take, List.length_cons,
    List.length_drop]
  omega

theorem patternKey_getElem (w : Word) {i : Nat} (hi : i < w.data.length) (m : Nat) :
    (patternKey w i).data[m]? = if m = i then some star else w.data[m]? := by
  simp only [data_patternKey, List.getElem?_append, List.length_take]
  rcases Nat.lt_trichotomy m i with hlt | rfl | hgt
  · rw [if_pos (by omega), List.getElem?_take, if_pos hlt, if_neg (by omega)]
  · rw [if_neg (by omega), if_pos rfl]
    have h0 : m - min m w.data.length = 0 := by omega
    rw [h0, List.getElem?_cons_zero]
  · rw [if_neg (by omega), if_neg (by omega)]
    have hmin : min i w.data.length = i := by omega
    rw [hmin]
    rcases Nat.exists_eq_add_of_lt hgt with ⟨j, rfl⟩
    have h1 : i + j + 1 - i = j + 1 := by omega
    rw [h1, List.getElem?_cons_succ, List.getElem?_drop]
    congr 1
    omega

theorem patternKey_inj {v : Word} (hstar : star ∉ v.data) {i j : Nat}
    (hi : i < v.data.length) (hj : j < v.data.length)
    (h : patternKey v i = patternKey v j) : i = j := by
  by_contra hne
  have hd := congrArg String.data h
  have h1 := patternKey_getElem v hi i
  have h2 := patternKey_getElem v hj i
  rw [hd] at h1
  rw [h1, if_pos rfl, if_neg hne] at h2
  have : star ∈ v.data := by
    rcases List.getElem?_eq_some.1 h2.symm with ⟨hlt, hget⟩
    exact hget ▸ List.getElem_mem hlt
  exact hstar this

/-! ### Bucket lemmas -/

theorem bucketsGet_bucketsAdd (b : Buckets) (k w k' : Word) :
    bucketsGet (bucketsAdd b k w) k' =
      if k' = k then bucketsGet b k' ++ [w] else bucketsGet b k' := by
  induction b with
  | nil =>
    simp only [bucketsAdd, bucketsGet]
    by_cases h : k' = k
    · subst h; rw [if_pos rfl, if_pos rfl]; rfl
    · rw [if_neg (fun hb => h hb.symm), if_neg h]
  | cons e rest ih =>
    obtain ⟨k₀, l₀⟩ := e
    simp only [bucketsAdd]
    by_cases h0 : k₀ = k
    · rw [if_pos h0]
      subst h0
      simp only [bucketsGet]
      by_cases h1 : k₀ = k'
      · subst h1
        rw [if_pos rfl, if_pos rfl, if_pos rfl]
      · rw [if_neg h1, if_neg h1, if_neg (fun hb => h1 hb.symm)]
    · rw [if_neg h0]
      simp only [bucketsGet]
      by_cases h1 : k₀ = k'
      · subst h1
        rw [if_pos rfl, if_neg h0, if_pos rfl]
      · rw [if_neg h1, if_neg h1]; exact ih

theorem mem_bucketsGet_foldl_add {is : List Nat} {b : Buckets} {w k v : Word} :
    v ∈ bucketsGet (is.foldl (fun b i => bucketsAdd b (patternKey w i) w) b) k ↔
      v ∈ bucketsGet b k ∨ (v = w ∧ ∃ i ∈ is, k = patternKey w i) := by
  induction is generalizing b with
  | nil => simp
  | cons i is ih =>
    rw [List.foldl_cons, ih, bucketsGet_bucketsAdd]
    by_cases hk : k = patternKey w i
    · rw [if_pos hk]
      simp only [List.mem_append, List.mem_cons, List.not_mem_nil, or_false]
      constructor
      · rintro ((h | rfl) | ⟨rfl, j, hj, hkey⟩)
        · exact Or.inl h
        · exact Or.inr ⟨rfl, i, Or.inl rfl, hk⟩
        · exact Or.inr ⟨rfl, j, Or.inr hj, hkey⟩
      · rintro (h | ⟨rfl, j, rfl | hj, hkey⟩)
        · exact Or.inl (Or.inl h)
        · exact Or.inl (Or.inr rfl)
        · exact Or.inr ⟨rfl, j, hj, hkey⟩
    · rw [if_neg hk]
      simp only [List.mem_cons]
      constructor
      · rintro (h | ⟨rfl, j, hj, hkey⟩)
        · exact Or.inl h
        · exact Or.inr ⟨rfl, j, Or.inr hj, hkey⟩
      · rintro (h | ⟨rfl, j, rfl | hj, hkey⟩)
        · exact Or.inl h
        · exact absurd hkey hk
        · exact Or.inr ⟨rfl, j, hj, hkey⟩

theorem mem_bucketsGet_addToBuckets {b : Buckets} {w : Word} {L : Nat} {k v : Word} :
    v ∈ bucketsGet (addToBuckets b w L) k ↔
      v ∈ bucketsGet b k ∨ (v = w ∧ ∃ i < L, k = patternKey w i) := by
  unfold addToBuckets
  rw [mem_bucketsGet_foldl_add]
  simp [List.mem_range]

theorem mem_bucketsGet_wordsFold {ws : List Word} {L : Nat} {b : Buckets} {k v : Word} :
    v ∈ bucketsGet (ws.foldl
        (fun b w => if w.length = L then addToBuckets b w L else b) b) k ↔
      v ∈ bucketsGet b k ∨ (v ∈ ws ∧ v.length = L ∧ ∃ i < L, k = patternKey v i) := by
  induction ws generalizing b with
  | nil => simp
  | cons w ws ih =>
    rw [List.foldl_cons, ih]
    by_cases hw : w.length = L
    · rw [if_pos hw, mem_bucketsGet_addToBuckets]
      constructor
      · rintro ((h | ⟨rfl, hex⟩) | h)
        · exact Or.inl h
        · exact Or.inr ⟨by simp, hw, hex⟩
        · exact Or.inr ⟨List.mem_cons_of_mem _ h.1, h.2⟩
      · rintro (h | ⟨hmem, hlen, hex⟩)
        · exact Or.inl (Or.inl h)
        · rcases List.mem_cons.1 hmem with rfl | hmem'
          · exact Or.inl (Or.inr ⟨rfl, hex⟩)
          · exact Or.inr ⟨hmem', hlen, hex⟩
    · rw [if_neg hw]
      constructor
      · rintro (h | h)
        · exact Or.inl h
        · exact Or.inr ⟨List.mem_cons_of_mem _ h.1, h.2⟩
      · rintro (h | ⟨hmem, hlen, hex⟩)
        · exact Or.inl h
        · rcases List.mem_cons.1 hmem with rfl | hmem'
          · exact absurd hlen hw
          · exact Or.inr ⟨hmem', hlen, hex⟩

theorem mem_bucketsGet_patternBuckets {ws : List Word} {L : Nat} {bw : Word} {k v : Word} :
    v ∈ bucketsGet (patternBuckets ws L bw) k ↔
      ((v ∈ ws ∧ v.length = L) ∨ (bw.length = L ∧ v = toLowerCase bw)) ∧
        ∃ i < L, k = patternKey v i := by
  unfold patternBuckets
  by_cases hbw : bw.length = L
  · rw [if_pos hbw, mem_bucketsGet_addToBuckets, mem_bucketsGet_wordsFold]
    simp only [bucketsGet, List.not_mem_nil, false_or]
    constructor
    · rintro (⟨hmem, hlen, hex⟩ | ⟨rfl, hex⟩)
      · exact ⟨Or.inl ⟨hmem, hlen⟩, hex⟩
      · exact ⟨Or.inr ⟨hbw, rfl⟩, hex⟩
    · rintro ⟨⟨hmem, hlen⟩ | ⟨_, rfl⟩, hex⟩
      · exact Or.inl ⟨hmem, hlen, hex⟩
      · exact Or.inr ⟨rfl, hex⟩
  · rw [if_neg hbw, mem_bucketsGet_wordsFold]
    simp only [bucketsGet, List.not_mem_nil, false_or]
    constructor
    · rintro ⟨hmem, hlen, hex⟩
      exact ⟨Or.inl ⟨hmem, hlen⟩, hex⟩
    · rintro ⟨⟨hmem, hlen⟩ | ⟨h, _⟩, hex⟩
      · exact ⟨hmem, hlen, hex⟩
      · exact absurd h hbw

theorem mem_keys_bucketsAdd {b : Buckets} {k w k' : Word} :
    k' ∈ (bucketsAdd b k w).map Prod.fst ↔ k' ∈ b.map Prod.fst ∨ k' = k := by
  induction b with
  | nil => simp [bucketsAdd]
  | cons e rest ih =>
    obtain ⟨k₀, l₀⟩ := e
    simp only [bucketsAdd]
    by_cases h0 : k₀ = k
    · subst h0
      rw [if_pos rfl]
      simp only [List.map_cons, List.mem_cons]
      constructor
      · rintro (rfl | h)
        · exact Or.inr rfl
        · exact Or.inl (Or.inr h)
      · rintro ((rfl | h) | rfl)
        · exact Or.inl rfl
        · exact Or.inr h
        · exact Or.inl rfl
    · rw [if_neg h0]
      simp only [List.map_cons, List.mem_cons, ih]
      tauto

theorem nodup_keys_bucketsAdd {b : Buckets} {k w : Word}
    (h : (b.map Prod.fst).Nodup) : ((bucketsAdd b k w).map Prod.fst).Nodup := by
  induction b with
  | nil => simp [bucketsAdd]
  | cons e rest ih =>
    obtain ⟨k₀, l₀⟩ := e
    simp only [List.map_cons, List.nodup_cons] at h
    simp only [bucketsAdd]
    by_cases h0 : k₀ = k
    · rw [if_pos h0]
      simp only [List.map_cons, List.nodup_cons]
      exact h
    · rw [if_neg h0]
      simp only [List.map_cons, List.nodup_cons]
      refine ⟨?_, ih h.2⟩
      rw [mem_keys_bucketsAdd]
      rintro (hm | rfl)
      · exact h.1 hm
      · exact h0 rfl

theorem nodup_keys_addToBuckets {b : Buckets} {w : Word} {L : Nat}
    (h : (b.map Prod.fst).Nodup) : ((addToBuckets b w L).map Prod.fst).Nodup := by
  unfold addToBuckets
  induction List.range L generalizing b with
  | nil => exact h
  | cons i is ih => exact ih (nodup_keys_bucketsAdd h)

theorem nodup_keys_patternBuckets (ws : List Word) (L : Nat) (bw : Word) :
    ((patternBuckets ws L bw).map Prod.fst).Nodup := by
  unfold patternBuckets
  have hbase : ∀ b : Buckets, (b.map Prod.fst).Nodup →
      ((ws.foldl (fun b w => if w.length = L then addToBuckets b w L else b) b).map
        Prod.fst).Nodup := by
    intro b hb
    induction ws generalizing b with
    | nil => exact hb
    | cons w ws ih =>
      rw [List.foldl_cons]
      by_cases hw : w.length = L
      · rw [if_pos hw]; exact ih _ (nodup_keys_addToBuckets hb)
      · rw [if_neg hw]; exact ih _ hb
  by_cases hbw : bw.length = L
  · rw [if_pos hbw]
    exact nodup_keys_addToBuckets (hbase [] (by simp))
  · rw [if_neg hbw]
    exact hbase [] (by simp)

theorem mem_keys_of_mem_bucketsGet {b : Buckets} {k v : Word}
    (h : v ∈ bucketsGet b k) : k ∈ b.map Prod.fst := by
  induction b with
  | nil => simp [bucketsGet] at h
  | cons e rest ih =>
    obtain ⟨k₀, l₀⟩ := e
    simp only [bucketsGet] at h
    by_cases h0 : k₀ = k
    · simp [h0]
    · rw [if_neg h0] at h
      simp only [List.map_cons, List.mem_cons]
      exact Or.inr (ih h)

theorem countP_mem_entries {b : Buckets} (hk : (b.map Prod.fst).Nodup) (v : Word) :
    b.countP (fun e => decide (v ∈ e.2)) =
      (b.map Prod.fst).countP (fun k => decide (v ∈ bucketsGet b k)) := by
  induction b with
  | nil => rfl
  | cons e rest ih =>
    obtain ⟨k₀, l₀⟩ := e
    simp only [List.map_cons, List.nodup_cons] at hk
    rw [List.countP_cons, List.map_cons, List.countP_cons]
    have hA : bucketsGet ((k₀, l₀) :: rest) k₀ = l₀ := by simp [bucketsGet]
    have hB : (rest.map Prod.fst).countP
          (fun k => decide (v ∈ bucketsGet ((k₀, l₀) :: rest) k)) =
        (rest.map Prod.fst).countP (fun k => decide (v ∈ bucketsGet rest k)) := by
      apply List.countP_congr
      intro k hkmem
      have hne : ¬k₀ = k := fun h => hk.1 (h ▸ hkmem)
      simp [bucketsGet, hne]
    rw [hA, hB, ih hk.2]

theorem countP_mem_eq_length {l T : List Word} (hl : l.Nodup) (hT : T.Nodup)
    (hsub : ∀ x ∈ T, x ∈ l) :
    l.countP (fun x => decide (x ∈ T)) = T.length := by
  rw [List.countP_eq_length_filter]
  have hperm : (l.filter (fun x => decide (x ∈ T))).Perm T := by
    rw [List.perm_ext_iff_of_nodup (hl.filter _) hT]
    intro a
    simp only [List.mem_filter, decide_eq_true_eq]
    exact ⟨fun h => h.2, fun h => ⟨hsub a h, h⟩⟩
  exact hperm.length_eq

/-! ### C5: pattern bucket invariant -/

/-- C5: every dictionary word of the bucket length L (well-formed, so not
itself containing the wildcard marker) is a member of exactly L buckets of
the built Neighbor Index, namely the bucket of `patternKey v i` for each
letter position i < L; this holds whether or not the begin word coincides
with the dictionary word. -/
theorem pattern_bucket_invariant (ws : List Word) (L : Nat) (bw v : Word)
    (hv : v ∈ ws) (hlen : v.length = L) (hstar : star ∉ v.data) :
    (patternBuckets ws L bw).countP (fun e => decide (v ∈ e.2)) = L ∧
      ∀ i < L, v ∈ bucketsGet (patternBuckets ws L bw) (patternKey v i) := by
  have hmem : ∀ k, v ∈ bucketsGet (patternBuckets ws L bw) k ↔
      ∃ i < L, k = patternKey v i := by
    intro k
    rw [mem_bucketsGet_patternBuckets]
    exact ⟨fun h => h.2, fun h => ⟨Or.inl ⟨hv, hlen⟩, h⟩⟩
  have hsnd : ∀ i < L, v ∈ bucketsGet (patternBuckets ws L bw) (patternKey v i) :=
    fun i hi => (hmem _).2 ⟨i, hi, rfl⟩
  refine ⟨?_, hsnd⟩
  have hkeys : ((patternBuckets ws L bw).map Prod.fst).Nodup :=
    nodup_keys_patternBuckets ws L bw
  rw [countP_mem_entries hkeys v]
  have hlenL : v.data.length = L := hlen
  have hT_nodup : ((List.range L).map (patternKey v)).Nodup := by
    refine List.Nodup.map_on ?_ (List.nodup_range L)
    intro i hi j hj h
    exact patternKey_inj hstar (hlenL ▸ List.mem_range.1 hi) (hlenL ▸ List.mem_range.1 hj) h
  have hT_sub : ∀ k ∈ (List.range L).map (patternKey v),
      k ∈ (patternBuckets ws L bw).map Prod.fst := by
    intro k hkT
    rcases List.mem_map.1 hkT with ⟨i, hi, rfl⟩
    exact mem_keys_of_mem_bucketsGet (hsnd i (List.mem_range.1 hi))
  have hcongr : ((patternBuckets ws L bw).map Prod.fst).countP
        (fun k => decide (v ∈ bucketsGet (patternBuckets ws L bw) k)) =
      ((patternBuckets ws L bw).map Prod.fst).countP
        (fun k => decide (k ∈ (List.range L).map (patternKey v))) := by
    apply List.countP_congr
    intro k _
    simp only [decide_eq_true_eq]
    rw [hmem k]
    constructor
    · rintro ⟨i, hi, rfl⟩
      exact List.mem_map.2 ⟨i, List.mem_range.2 hi, rfl⟩
    · intro h
      rcases List.mem_map.1 h with ⟨i, hi, rfl⟩
      exact ⟨i, List.mem_range.1 hi, rfl⟩
  rw [hcongr, countP_mem_eq_length hkeys hT_nodup hT_sub]
  simp

/-- witness for C5: three-letter word "hot" in a dictionary where the begin
word "hot" is itself a dictionary member; it sits in exactly 3 buckets. -/
theorem pattern_bucket_invariant_witness :
    ("hot" ∈ (["hot", "dot"] : List Word) ∧ ("hot" : Word).length = 3 ∧
        star ∉ ("hot" : Word).data) ∧
      ((patternBuckets ["hot", "dot"] 3 "hot").countP
          (fun e => decide (("hot" : Word) ∈ e.2)) = 3 ∧
        ∀ i < 3, ("hot" : Word) ∈ bucketsGet (patternBuckets ["hot", "dot"] 3 "hot")
          (patternKey "hot" i)) :=
  ⟨⟨by decide, by decide, by decide⟩,
    pattern_bucket_invariant ["hot", "dot"] 3 "hot" "hot" (by decide) (by decide) (by decide)⟩

/-! ### Neighbor query characterization -/

theorem mem_getNeighbors_inner {w : Word} {arr res : List Word} {v : Word} :
    v ∈ arr.foldl
        (fun res v' => if v' ≠ w ∧ v'.length = w.length then insertUnique res v' else res)
        res ↔
      v ∈ res ∨ (v ∈ arr ∧ v ≠ w ∧ v.length = w.length) := by
  induction arr generalizing res with
  | nil => simp
  | cons a arr ih =>
    rw [List.foldl_cons, ih]
    by_cases ha : a ≠ w ∧ a.length = w.length
    · rw [if_pos ha]
      simp only [mem_insertUnique, List.mem_cons]
      constructor
      · rintro ((h | rfl) | ⟨hm, hc⟩)
        · exact Or.inl h
        · exact Or.inr ⟨Or.inl rfl, ha⟩
        · exact Or.inr ⟨Or.inr hm, hc⟩
      · rintro (h | ⟨rfl | hm, hc⟩)
        · exact Or.inl (Or.inl h)
        · exact Or.inl (Or.inr rfl)
        · exact Or.inr ⟨hm, hc⟩
    · rw [if_neg ha]
      simp only [List.mem_cons]
      constructor
      · rintro (h | ⟨hm, hc⟩)
        · exact Or.inl h
        · exact Or.inr ⟨Or.inr hm, hc⟩
      · rintro (h | ⟨rfl | hm, hc⟩)
        · exact Or.inl h
        · exact absurd hc ha
        · exact Or.inr ⟨hm, hc⟩

theorem mem_getNeighbors_outer {buckets : Buckets} {w : Word} {is : List Nat}
    {res : List Word} {v : Word} :
    v ∈ is.foldl
        (fun res i =>
          (bucketsGet buckets (patternKey w i)).foldl
            (fun res v' =>
              if v' ≠ w ∧ v'.length = w.length then insertUnique res v' else res)
            res)
        res ↔
      v ∈ res ∨
        ((∃ i ∈ is, v ∈ bucketsGet buckets (patternKey w i)) ∧ v ≠ w ∧
          v.length = w.length) := by
  induction is generalizing res with
  | nil => simp
  | cons i is ih =>
    rw [List.foldl_cons, ih, mem_getNeighbors_inner]
    constructor
    · rintro ((h | ⟨hm, hc⟩) | ⟨⟨j, hj, hm⟩, hc⟩)
      · exact Or.inl h
      · exact Or.inr ⟨⟨i, by simp, hm⟩, hc⟩
      · exact Or.inr ⟨⟨j, List.mem_cons_of_mem _ hj, hm⟩, hc⟩
    · rintro (h | ⟨⟨j, hj, hm⟩, hc⟩)
      · exact Or.inl (Or.inl h)
      · rcases List.mem_cons.1 hj with rfl | hj'
        · exact Or.inl (Or.inr ⟨hm, hc⟩)
        · exact Or.inr ⟨⟨j, hj', hm⟩, hc⟩

theorem mem_getNeighbors {buckets : Buckets} {wordLen : Nat} {w v : Word} :
    v ∈ getNeighbors buckets wordLen w ↔
      v ≠ w ∧ v.length = w.length ∧
        ∃ i < wordLen, v ∈ bucketsGet buckets (patternKey w i) := by
  unfold getNeighbors
  rw [mem_getNeighbors_outer]
  simp only [List.not_mem_nil, false_or, List.mem_range]
  constructor
  · rintro ⟨⟨i, hi, hm⟩, hne, hlen⟩
    exact ⟨hne, hlen, i, hi, hm⟩
  · rintro ⟨hne, hlen, i, hi, hm⟩
    exact ⟨⟨i, hi, hm⟩, hne, hlen⟩

theorem nodup_getNeighbors_inner {w : Word} {arr res : List Word} (h : res.Nodup) :
    (arr.foldl
        (fun res v' => if v' ≠ w ∧ v'.length = w.length then insertUnique res v' else res)
        res).Nodup := by
  induction arr generalizing res with
  | nil => exact h
  | cons a arr ih =>
    rw [List.foldl_cons]
    by_cases ha : a ≠ w ∧ a.length = w.length
    · rw [if_pos ha]; exact ih (nodup_insertUnique h a)
    · rw [if_neg ha]; exact ih h

theorem nodup_getNeighbors {buckets : Buckets} {wordLen : Nat} {w : Word} :
    (getNeighbors buckets wordLen w).Nodup := by
  unfold getNeighbors
  have : ∀ (is : List Nat) (res : List Word), res.Nodup →
      (is.foldl
        (fun res i =>
          (bucketsGet buckets (patternKey w i)).foldl
            (fun res v' =>
              if v' ≠ w ∧ v'.length = w.length then insertUnique res v' else res)
            res)
        res).Nodup := by
    intro is
    induction is with
    | nil => exact fun res h => h
    | cons i is ih =>
      intro res h
      rw [List.foldl_cons]
      exact ih _ (nodup_getNeighbors_inner h)
  exact this _ [] (by simp)

/-! ### Parents map lemmas -/

theorem parentsGet_parentsAdd (ps : Parents) (c p c' : Word) :
    parentsGet (parentsAdd ps c p) c' =
      if c' = c then some (insertUnique ((parentsGet ps c).getD []) p)
      else parentsGet ps c' := by
  induction ps with
  | nil =>
    simp only [parentsAdd, parentsGet]
    by_cases h : c' = c
    · subst h; rw [if_pos rfl, if_pos rfl]; rfl
    · rw [if_neg (fun hb => h hb.symm), if_neg h]
  | cons e rest ih =>
    obtain ⟨k₀, v₀⟩ := e
    by_cases h0 : k₀ = c
    · subst h0
      by_cases h1 : k₀ = c'
      · subst h1
        simp [parentsAdd, parentsGet]
      · have h2 : ¬c' = k₀ := fun hb => h1 hb.symm
        simp [parentsAdd, parentsGet, h1, h2]
    · by_cases h1 : k₀ = c'
      · subst h1
        simp [parentsAdd, parentsGet, h0, fun hb : k₀ = c => h0 hb]
      · simp [parentsAdd, parentsGet, h0, h1, ih]

theorem insertUnique_eq_self {l : List Word} {a : Word} (h : a ∈ l) :
    insertUnique l a = l := by
  simp [insertUnique, h]

theorem insertUnique_idem (l : List Word) (a : Word) :
    insertUnique (insertUnique l a) a = insertUnique l a :=
  insertUnique_eq_self (mem_insertUnique.2 (Or.inr rfl))

/-! ### Level expansion characterization -/

theorem expandNode_fst_mem {visited : List Word} {node : Word} {neis : List Word}
    {st : List Word × Parents} {c : Word} :
    c ∈ (expandNode visited node neis st).1 ↔ c ∈ st.1 ∨ (c ∈ neis ∧ c ∉ visited) := by
  induction neis generalizing st with
  | nil => simp [expandNode]
  | cons nei rest ih =>
    simp only [expandNode]
    by_cases hv : nei ∈ visited
    · rw [if_pos hv, ih]
      constructor
      · rintro (h | hc)
        · exact Or.inl h
        · exact Or.inr ⟨List.mem_cons_of_mem _ hc.1, hc.2⟩
      · rintro (h | ⟨hm, hnv⟩)
        · exact Or.inl h
        · rcases List.mem_cons.1 hm with rfl | hm'
          · exact absurd hv hnv
          · exact Or.inr ⟨hm', hnv⟩
    · rw [if_neg hv, ih]
      simp only [mem_insertUnique]
      constructor
      · rintro ((h | rfl) | hc)
        · exact Or.inl h
        · exact Or.inr ⟨List.mem_cons_self _ _, hv⟩
        · exact Or.inr ⟨List.mem_cons_of_mem _ hc.1, hc.2⟩
      · rintro (h | ⟨hm, hnv⟩)
        · exact Or.inl (Or.inl h)
        · rcases List.mem_cons.1 hm with rfl | hm'
          · exact Or.inl (Or.inr rfl)
          · exact Or.inr ⟨hm', hnv⟩

theorem expandNode_fst_nodup {visited : List Word} {node : Word} {neis : List Word}
    {st : List Word × Parents} (h : st.1.Nodup) :
    (expandNode visited node neis st).1.Nodup := by
  induction neis generalizing st with
  | nil => exact h
  | cons nei rest ih =>
    simp only [expandNode]
    by_cases hv : nei ∈ visited
    · rw [if_pos hv]; exact ih h
    · rw [if_neg hv]; exact ih (nodup_insertUnique h nei)

theorem expandNode_parentsGet {visited : List Word} {node : Word} {neis : List Word}
    {st : List Word × Parents} {c : Word} :
    parentsGet (expandNode visited node neis st).2 c =
      if c ∈ neis ∧ c ∉ visited
      then some (insertUnique ((parentsGet st.2 c).getD []) node)
      else parentsGet st.2 c := by
  induction neis generalizing st with
  | nil => simp [expandNode]
  | cons nei rest ih =>
    simp only [expandNode]
    by_cases hv : nei ∈ visited
    · rw [if_pos hv, ih]
      by_cases hc : c ∈ rest ∧ c ∉ visited
      · rw [if_pos hc, if_pos ⟨List.mem_cons_of_mem _ hc.1, hc.2⟩]
      · rw [if_neg hc]
        by_cases hc2 : c ∈ nei :: rest ∧ c ∉ visited
        · rcases List.mem_cons.1 hc2.1 with rfl | hmem
          · exact absurd hv hc2.2
          · exact absurd ⟨hmem, hc2.2⟩ hc
        · rw [if_neg hc2]
    · rw [if_neg hv, ih]
      by_cases hcn : c = nei
      · subst hcn
        rw [parentsGet_parentsAdd, if_pos rfl]
        by_cases hc : c ∈ rest ∧ c ∉ visited
        · rw [if_pos hc, if_pos ⟨List.mem_cons_self _ _, hv⟩]
          simp only [Option.getD_some]
          rw [insertUnique_idem]
        · rw [if_neg hc, if_pos ⟨List.mem_cons_self _ _, hv⟩]
      · rw [parentsGet_parentsAdd, if_neg hcn]
        by_cases hc : c ∈ rest ∧ c ∉ visited
        · rw [if_pos hc, if_pos ⟨List.mem_cons_of_mem _ hc.1, hc.2⟩]
        · rw [if_neg hc]
          by_cases hc2 : c ∈ nei :: rest ∧ c ∉ visited
          · rcases List.mem_cons.1 hc2.1 with rfl | hmem
            · exact absurd rfl hcn
            · exact absurd ⟨hmem, hc2.2⟩ hc
          · rw [if_neg hc2]

theorem expandFrontier_fst_mem {gn : Word → List Word} {visited frontier : List Word}
    {st : List Word × Parents} {c : Word} :
    c ∈ (expandFrontier gn visited frontier st).1 ↔
      c ∈ st.1 ∨ ((∃ p ∈ frontier, c ∈ gn p) ∧ c ∉ visited) := by
  induction frontier generalizing st with
  | nil => simp [expandFrontier]
  | cons node rest ih =>
    simp only [expandFrontier]
    rw [ih, expandNode_fst_mem]
    constructor
    · rintro ((h | ⟨hm, hnv⟩) | ⟨⟨p, hp, hm⟩, hnv⟩)
      · exact Or.inl h
      · exact Or.inr ⟨⟨node, List.mem_cons_self _ _, hm⟩, hnv⟩
      · exact Or.inr ⟨⟨p, List.mem_cons_of_mem _ hp, hm⟩, hnv⟩
    · rintro (h | ⟨⟨p, hp, hm⟩, hnv⟩)
      · exact Or.inl (Or.inl h)
      · rcases List.mem_cons.1 hp with rfl | hp'
        · exact Or.inl (Or.inr ⟨hm, hnv⟩)
        · exact Or.inr ⟨⟨p, hp', hm⟩, hnv⟩

theorem expandFrontier_fst_nodup {gn : Word → List Word} {visited frontier : List Word}
    {st : List Word × Parents} (h : st.1.Nodup) :
    (expandFrontier gn visited frontier st).1.Nodup := by
  induction frontier generalizing st with
  | nil => exact h
  | cons node rest ih => exact ih (expandNode_fst_nodup h)

theorem expandFrontier_parentsGet {gn : Word → List Word} {visited frontier : List Word}
    {st : List Word × Parents} {c : Word} :
    parentsGet (expandFrontier gn visited frontier st).2 c =
      if c ∉ visited ∧ ∃ p ∈ frontier, c ∈ gn p
      then some ((frontier.filter (fun p => decide (c ∈ gn p))).foldl insertUnique
        ((parentsGet st.2 c).getD []))
      else parentsGet st.2 c := by
  induction frontier generalizing st with
  | nil => simp [expandFrontier]
  | cons node rest ih =>
    simp only [expandFrontier]
    by_cases hv : c ∈ visited
    · simp [ih, expandNode_parentsGet, hv]
    · by_cases hnode : c ∈ gn node
      · have hfil : (node :: rest).filter (fun p => decide (c ∈ gn p)) =
            node :: rest.filter (fun p => decide (c ∈ gn p)) := by
          rw [List.filter_cons, if_pos (by simpa using hnode)]
        by_cases hrest : ∃ p ∈ rest, c ∈ gn p
        · simp [ih, expandNode_parentsGet, hv, hnode, hrest, hfil]
        · have hfil2 : rest.filter (fun p => decide (c ∈ gn p)) = [] := by
            rw [List.filter_eq_nil_iff]
            intro p hp
            simp only [decide_eq_true_eq]
            exact fun hm => hrest ⟨p, hp, hm⟩
          simp [ih, expandNode_parentsGet, hv, hnode, hrest, hfil, hfil2]
      · have hfil : (node :: rest).filter (fun p => decide (c ∈ gn p)) =
            rest.filter (fun p => decide (c ∈ gn p)) := by
          rw [List.filter_cons, if_neg (by simpa using hnode)]
        by_cases hrest : ∃ p ∈ rest, c ∈ gn p
        · simp [ih, expandNode_parentsGet, hv, hnode, hrest, hfil]
        · simp [ih, expandNode_parentsGet, hv, hnode, hrest, hfil]

/-! ### C7: length-mismatch early exit -/

theorem frames_of_length_mismatch {B E : Word} (ws : List Word)
    (h : B.length ≠ E.length) : frames B E ws = [] := by
  unfold frames
  simp [h]

/-- C7: for every begin word B, end word E and dictionary with
length(B) ≠ length(E), the engine produces an empty frame sequence and an
empty path list; the condition is an early exit represented as data (the
embedded functions are total and return empty structures, never an error). -/
theorem length_mismatch_early_exit (B E : Word) (ws : List Word)
    (h : B.length ≠ E.length) :
    frames B E ws = [] ∧ allPaths B E ws = [] := by
  refine ⟨frames_of_length_mismatch ws h, ?_⟩
  unfold allPaths
  rw [frames_of_length_mismatch ws h]
  simp [finalParents, parentsGet]

/-- witness for C7 at a concrete mismatched-length input. -/
theorem length_mismatch_early_exit_witness :
    "hit".length ≠ "code".length ∧
      (frames "hit" "code" ["hot"] = [] ∧ allPaths "hit" "code" ["hot"] = []) :=
  ⟨by decide, length_mismatch_early_exit "hit" "code" ["hot"] (by decide)⟩

/-! ### Small transfer lemmas for the BFS development -/

theorem contains_iff {l : List Word} {a : Word} : l.contains a = true ↔ a ∈ l :=
  List.elem_iff

theorem bfsLoop_frontier_nil (gn : Word → List Word) (tgt : Word) (fuel : Nat)
    (visited : List Word) (parents : Parents) (level : Nat) :
    bfsLoop gn tgt fuel visited parents [] level = [] := by
  cases fuel with
  | zero => rfl
  | succ fuel => rfl

theorem histFrontier_append_lt {hist : List (List Word)} {x : List Word} {j : Nat}
    (h : j < hist.length) : histFrontier (hist ++ [x]) j = histFrontier hist j :=
  List.getD_append _ _ _ _ h

theorem histFrontier_append_self {hist : List (List Word)} {x : List Word} :
    histFrontier (hist ++ [x]) hist.length = x := by
  unfold histFrontier
  rw [List.getD_append_right _ _ _ _ (le_refl _), Nat.sub_self]
  rfl

theorem histFrontier_of_ge {hist : List (List Word)} {j : Nat}
    (h : hist.length ≤ j) : histFrontier hist j = [] :=
  List.getD_eq_default _ _ h

theorem histFrontier_take {hist : List (List Word)} {n j : Nat} (h : j < n) :
    histFrontier (hist.take n) j = histFrontier hist j := by
  unfold histFrontier
  rw [List.getD_eq_getElem?_getD, List.getD_eq_getElem?_getD, List.getElem?_take,
    if_pos h]

theorem histFrontier_of_take_front {hist' hist : List (List Word)} {n j : Nat}
    (hpre : hist'.take n = hist) (h : j < n) :
    histFrontier hist' j = histFrontier hist j := by
  rw [← hpre, histFrontier_take h]

theorem take_of_take_front {hist' hist : List (List Word)} {n m : Nat}
    (hpre : hist'.take n = hist) (h : m ≤ n) :
    hist'.take m = hist.take m := by
  rw [← hpre, List.take_take, Nat.min_eq_left h]

theorem ParentsCanon_of_take_front {gn : Word → List Word}
    {hist' hist : List (List Word)} {n m : Nat} {parents : Parents}
    (hpre : hist'.take n = hist) (hm : m ≤ n) (hn : n ≤ hist.length)
    (h : ParentsCanon gn hist m parents) : ParentsCanon gn hist' m parents := by
  have hlen : n ≤ hist'.length := by
    have := congrArg List.length hpre
    rw [List.length_take] at this
    omega
  constructor
  · intro c ps hps
    rcases h.sound c ps hps with ⟨j, hj0, hjm, hjh, hmem, hval⟩
    refine ⟨j, hj0, hjm, by omega, ?_, ?_⟩
    · rwa [histFrontier_of_take_front hpre (by omega)]
    · rwa [histFrontier_of_take_front hpre (by omega)]
  · intro j hj0 hjm hjh c hc
    refine h.complete j hj0 hjm (by omega) c ?_
    rwa [histFrontier_of_take_front hpre (by omega)] at hc

theorem countP_lt_of_witness {U : List Word} {p q : Word → Bool}
    (hmono : ∀ a, p a = true → q a = true) {c₀ : Word} (hc₀ : c₀ ∈ U)
    (h1 : q c₀ = true) (h2 : p c₀ = false) : U.countP p < U.countP q := by
  induction U with
  | nil => cases hc₀
  | cons a U ih =>
    rw [List.countP_cons, List.countP_cons]
    rcases List.mem_cons.1 hc₀ with rfl | hmem
    · rw [h2, h1]
      simp only [Bool.false_eq_true, if_false, if_true]
      have := List.countP_mono_left (fun a _ h => hmono a h) (l := U)
      omega
    · have hle : (if p a = true then 1 else 0) ≤ (if q a = true then 1 else 0) := by
        by_cases hp : p a = true
        · rw [if_pos hp, if_pos (hmono a hp)]
        · rw [if_neg hp]
          omega
      have := ih hmem
      omega

theorem mem_flatten_of_histFrontier {hist : List (List Word)} {j : Nat} {c : Word}
    (hj : j < hist.length) (hc : c ∈ histFrontier hist j) : c ∈ hist.flatten := by
  rw [List.mem_flatten]
  refine ⟨histFrontier hist j, ?_, hc⟩
  unfold histFrontier
  rw [List.getD_eq_getElem?_getD]
  have : hist[j]? = some hist[j] := List.getElem?_eq_getElem hj
  rw [this]
  exact List.getElem_mem hj

theorem nodup_of_mem_of_flatten_nodup {hist : List (List Word)}
    (h : hist.flatten.Nodup) {l : List Word} (hl : l ∈ hist) : l.Nodup := by
  induction hist with
  | nil => cases hl
  | cons x xs ih =>
    rw [List.flatten_cons, List.nodup_append] at h
    rcases List.mem_cons.1 hl with rfl | hl'
    · exact h.1
    · exact ih h.2.1 hl'

theorem nodup_histFrontier {hist : List (List Word)} (h : hist.flatten.Nodup)
    (j : Nat) : (histFrontier hist j).Nodup := by
  by_cases hj : j < hist.length
  · have hmem : histFrontier hist j ∈ hist := by
      unfold histFrontier
      rw [List.getD_eq_getElem?_getD]
      have : hist[j]? = some hist[j] := List.getElem?_eq_getElem hj
      rw [this]
      exact List.getElem_mem hj
    exact nodup_of_mem_of_flatten_nodup h hmem
  · rw [histFrontier_of_ge (by omega)]
    exact List.nodup_nil

theorem disjoint_histFrontier {hist : List (List Word)} (h : hist.flatten.Nodup)
    {i j : Nat} (hij : i < j) (hj : j < hist.length) {c : Word}
    (hci : c ∈ histFrontier hist i) (hcj : c ∈ histFrontier hist j) : False := by
  induction hist generalizing i j with
  | nil => simp at hj
  | cons x xs ih =>
    rw [List.flatten_cons, List.nodup_append] at h
    cases i with
    | zero =>
      have hcx : c ∈ x := hci
      cases j with
      | zero => omega
      | succ j' =>
        have hcj' : c ∈ histFrontier xs j' := hcj
        have : c ∈ xs.flatten :=
          mem_flatten_of_histFrontier (by simpa using hj) hcj'
        exact h.2.2 hcx this
    | succ i' =>
      cases j with
      | zero => omega
      | succ j' =>
        exact ih h.2.1 (by omega) (by simpa using hj) hci hcj

/-- unfolding of one loop iteration, with the let bindings spelled out. -/
theorem bfsLoop_succ (gn : Word → List Word) (tgt : Word) (fuel : Nat)
    (visited : List Word) (parents : Parents) (frontier : List Word) (level : Nat) :
    bfsLoop gn tgt (fuel + 1) visited parents frontier level =
      if frontier.isEmpty then []
      else
        if (expandFrontier gn visited frontier ([], parents)).1.contains tgt
        then [⟨level, frontier, (expandFrontier gn visited frontier ([], parents)).1,
          (expandFrontier gn visited frontier ([], parents)).1.foldl insertUnique visited,
          (expandFrontier gn visited frontier ([], parents)).2,
          (expandFrontier gn visited frontier ([], parents)).1.contains tgt⟩]
        else ⟨level, frontier, (expandFrontier gn visited frontier ([], parents)).1,
          (expandFrontier gn visited frontier ([], parents)).1.foldl insertUnique visited,
          (expandFrontier gn visited frontier ([], parents)).2,
          (expandFrontier gn visited frontier ([], parents)).1.contains tgt⟩ ::
          bfsLoop gn tgt fuel
            ((expandFrontier gn visited frontier ([], parents)).1.foldl insertUnique
              visited)
            (expandFrontier gn visited frontier ([], parents)).2
            (expandFrontier gn visited frontier ([], parents)).1 (level + 1) := rfl

theorem FrameSpec_of_take_front {gn : Word → List Word} {tgt : Word}
    {hist' hist : List (List Word)} {n j : Nat} {f : BFSFrame}
    (hpre : hist'.take n = hist) (hj : j + 2 ≤ n) (hn : n ≤ hist.length)
    (h : FrameSpec gn tgt hist j f) : FrameSpec gn tgt hist' j f := by
  obtain ⟨h1, h2, h3, h4, h5, h6⟩ := h
  refine ⟨h1, ?_, ?_, ?_, ?_, ?_⟩
  · rw [histFrontier_of_take_front hpre (by omega)]; exact h2
  · rw [histFrontier_of_take_front hpre (by omega)]; exact h3
  · rw [take_of_take_front hpre (by omega)]; exact h4
  · rw [histFrontier_of_take_front hpre (by omega)]; exact h5
  · exact ParentsCanon_of_take_front hpre (by omega) hn h6

/-- master induction for the BFS loop: starting from a coherent state, the
produced frames extend the frontier history level by level, each frame
matching `FrameSpec`, and the run ends by exhaustion or discovery. -/
theorem bfsLoop_spec (gn : Word → List Word) (src tgt : Word) (U : List Word)
    (hU : ∀ p c, c ∈ gn p → c ∈ U) :
    ∀ (fuel : Nat) (hist : List (List Word)) (parents : Parents) (out : List BFSFrame),
      LevelsOK gn src hist →
      ParentsCanon gn hist hist.length parents →
      (∀ j, 0 < j → j < hist.length → tgt ∉ histFrontier hist j) →
      0 < hist.length →
      U.countP (fun u => decide (u ∉ hist.flatten)) + 2 ≤ fuel →
      out = bfsLoop gn tgt fuel hist.flatten parents
        (histFrontier hist (hist.length - 1)) (hist.length - 1) →
      ∃ hist' : List (List Word),
        hist'.length = hist.length + out.length ∧
        hist'.take hist.length = hist ∧
        LevelsOK gn src hist' ∧
        (∀ i f, out[i]? = some f → FrameSpec gn tgt hist' (hist.length - 1 + i) f) ∧
        (∀ j, 0 < j → j + 1 < hist'.length → tgt ∉ histFrontier hist' j) ∧
        (histFrontier hist' (hist'.length - 1) = [] ∨
          tgt ∈ histFrontier hist' (hist'.length - 1)) := by
  intro fuel
  induction fuel with
  | zero =>
    intro hist parents out _ _ _ _ hfuel _
    omega
  | succ fuel ih =>
    intro hist parents out hlv hpc htgt hlen hfuel hout
    rw [bfsLoop_succ] at hout
    by_cases hF : histFrontier hist (hist.length - 1) = []
    · rw [if_pos (List.isEmpty_iff.2 hF)] at hout
      refine ⟨hist, ?_, List.take_length _, hlv, ?_, ?_, Or.inl hF⟩
      · rw [hout]; simp
      · intro i f hif
        rw [hout] at hif
        simp at hif
      · intro j hj0 hj1
        exact htgt j hj0 (by omega)
    · rw [if_neg (fun h => hF (List.isEmpty_iff.1 h))] at hout
      generalize hfst : (expandFrontier gn hist.flatten
        (histFrontier hist (hist.length - 1)) ([], parents)).1 = next at hout
      generalize hsnd : (expandFrontier gn hist.flatten
        (histFrontier hist (hist.length - 1)) ([], parents)).2 = parents' at hout
      have hnext_mem : ∀ c, c ∈ next ↔
          (∃ p ∈ histFrontier hist (hist.length - 1), c ∈ gn p) ∧
            c ∉ hist.flatten := by
        intro c
        rw [← hfst, expandFrontier_fst_mem]
        simp
      have hnext_nodup : next.Nodup := by
        rw [← hfst]
        exact expandFrontier_fst_nodup (by simp)
      have hnext_disj : ∀ c ∈ next, c ∉ hist.flatten :=
        fun c hc => ((hnext_mem c).1 hc).2
      have hvis' : next.foldl insertUnique hist.flatten = hist.flatten ++ next :=
        foldl_insertUnique_eq_append hnext_disj hnext_nodup
      have hflat'' : (hist ++ [next]).flatten = hist.flatten ++ next := by simp
      have hparents_none : ∀ c, c ∉ hist.flatten → parentsGet parents c = none := by
        intro c hc
        cases hcase : parentsGet parents c with
        | none => rfl
        | some ps =>
          rcases hpc.sound c ps hcase with ⟨j, hj0, hjm, hjh, hmem, _⟩
          exact absurd (mem_flatten_of_histFrontier hjh hmem) hc
      have hF_nodup : (histFrontier hist (hist.length - 1)).Nodup :=
        nodup_histFrontier hlv.nodup _
      have hpg' : ∀ c, parentsGet parents' c =
          if c ∉ hist.flatten ∧ ∃ p ∈ histFrontier hist (hist.length - 1), c ∈ gn p
          then some ((histFrontier hist (hist.length - 1)).filter
            (fun p => decide (c ∈ gn p)))
          else parentsGet parents c := by
        intro c
        rw [← hsnd, expandFrontier_parentsGet]
        by_cases hc : c ∉ hist.flatten ∧
            ∃ p ∈ histFrontier hist (hist.length - 1), c ∈ gn p
        · rw [if_pos hc, if_pos hc, hparents_none c hc.1]
          simp only [Option.getD_none]
          congr 1
          rw [foldl_insertUnique_eq_append (by simp) (hF_nodup.filter _)]
          simp
        · rw [if_neg hc, if_neg hc]
      have hlen'' : (hist ++ [next]).length = hist.length + 1 := by simp
      have hlv'' : LevelsOK gn src (hist ++ [next]) := by
        refine ⟨?_, ?_, ?_⟩
        · rw [histFrontier_append_lt hlen]
          exact hlv.zero
        · rw [hflat'', List.nodup_append]
          exact ⟨hlv.nodup, hnext_nodup,
            List.disjoint_left.2 fun a ha hae => hnext_disj a hae ha⟩
        · intro j hj1 c
          rw [hlen''] at hj1
          by_cases hj : j + 1 < hist.length
          · rw [histFrontier_append_lt hj, histFrontier_append_lt (by omega),
              List.take_append_of_le_length (by omega)]
            exact hlv.step j hj c
          · have hjL : j = hist.length - 1 := by omega
            subst hjL
            have h1 : hist.length - 1 + 1 = hist.length := by omega
            rw [h1, histFrontier_append_self, histFrontier_append_lt (by omega),
              List.take_append_of_le_length (le_refl _), List.take_length]
            exact (hnext_mem c).trans and_comm
      have hpc'' : ParentsCanon gn (hist ++ [next]) (hist.length + 1) parents' := by
        constructor
        · intro c ps hps
          rw [hpg' c] at hps
          by_cases hc : c ∉ hist.flatten ∧
              ∃ p ∈ histFrontier hist (hist.length - 1), c ∈ gn p
          · rw [if_pos hc] at hps
            injection hps with hps
            refine ⟨hist.length, by omega, by omega, by rw [hlen'']; omega, ?_, ?_⟩
            · rw [histFrontier_append_self]
              exact (hnext_mem c).2 ⟨hc.2, hc.1⟩
            · rw [histFrontier_append_lt (by omega)]
              exact hps.symm
          · rw [if_neg hc] at hps
            rcases hpc.sound c ps hps with ⟨j, hj0, hjm, hjh, hmem, hval⟩
            refine ⟨j, hj0, by omega, by rw [hlen'']; omega, ?_, ?_⟩
            · rwa [histFrontier_append_lt (by omega)]
            · rwa [histFrontier_append_lt (by omega)]
        · intro j hj0 hjm hjh c hc
          rw [hlen''] at hjh
          rw [hpg' c]
          by_cases hcc : c ∉ hist.flatten ∧
              ∃ p ∈ histFrontier hist (hist.length - 1), c ∈ gn p
          · rw [if_pos hcc]
            exact Option.some_ne_none _
          · rw [if_neg hcc]
            by_cases hj : j < hist.length
            · rw [histFrontier_append_lt hj] at hc
              exact hpc.complete j hj0 (by omega) hj c hc
            · have hjL : j = hist.length := by omega
              subst hjL
              rw [histFrontier_append_self] at hc
              exact absurd ⟨((hnext_mem c).1 hc).2, ((hnext_mem c).1 hc).1⟩ hcc
      have hframe : FrameSpec gn tgt (hist ++ [next]) (hist.length - 1)
          ⟨hist.length - 1, histFrontier hist (hist.length - 1), next,
            next.foldl insertUnique hist.flatten, parents', next.contains tgt⟩ := by
        have h1 : hist.length - 1 + 1 = hist.length := by omega
        have h2 : hist.length - 1 + 2 = hist.length + 1 := by omega
        refine ⟨rfl, ?_, ?_, ?_, ?_, ?_⟩
        · rw [histFrontier_append_lt (by omega)]
        · rw [h1, histFrontier_append_self]
        · rw [h2, List.take_of_length_le (by rw [hlen'']), hflat'', hvis']
        · rw [h1, histFrontier_append_self]
        · rw [h2]
          exact hpc''
      by_cases hcont : next.contains tgt = true
      · rw [if_pos hcont] at hout
        refine ⟨hist ++ [next], ?_, List.take_left _ _, hlv'', ?_, ?_, ?_⟩
        · rw [hout, hlen'']; rfl
        · intro i f hif
          rw [hout] at hif
          cases i with
          | zero =>
            simp only [List.getElem?_cons_zero] at hif
            injection hif with hif
            rw [hif] at hframe
            simpa using hframe
          | succ i' => simp at hif
        · intro j hj0 hj1
          rw [hlen''] at hj1
          rw [histFrontier_append_lt (by omega)]
          exact htgt j hj0 (by omega)
        · refine Or.inr ?_
          rw [hlen'', Nat.add_sub_cancel, histFrontier_append_self]
          exact contains_iff.1 hcont
      · rw [if_neg hcont] at hout
        by_cases hnil : next = []
        · subst hnil
          rw [bfsLoop_frontier_nil] at hout
          refine ⟨hist ++ [[]], ?_, List.take_left _ _, hlv'', ?_, ?_, ?_⟩
          · rw [hout, hlen'']; rfl
          · intro i f hif
            rw [hout] at hif
            cases i with
            | zero =>
              simp only [List.getElem?_cons_zero] at hif
              injection hif with hif
              rw [hif] at hframe
              simpa using hframe
            | succ i' => simp at hif
          · intro j hj0 hj1
            rw [hlen''] at hj1
            rw [histFrontier_append_lt (by omega)]
            exact htgt j hj0 (by omega)
          · refine Or.inl ?_
            rw [hlen'', Nat.add_sub_cancel, histFrontier_append_self]
        · -- recurse
          rcases List.exists_mem_of_ne_nil next hnil with ⟨c₀, hc₀⟩
          have hc₀U : c₀ ∈ U := by
            rcases ((hnext_mem c₀).1 hc₀).1 with ⟨p, _, hm⟩
            exact hU p c₀ hm
          have hdec : U.countP (fun u => decide (u ∉ (hist ++ [next]).flatten)) <
              U.countP (fun u => decide (u ∉ hist.flatten)) := by
            refine countP_lt_of_witness ?_ hc₀U ?_ ?_
            · intro a ha
              simp only [decide_eq_true_eq, hflat'', List.mem_append] at ha ⊢
              exact fun hm => ha (Or.inl hm)
            · simp only [decide_eq_true_eq]
              exact hnext_disj c₀ hc₀
            · simp only [decide_eq_false_iff_not, Decidable.not_not, hflat'',
                List.mem_append]
              exact Or.inr hc₀
          have htgt'' : ∀ j, 0 < j → j < (hist ++ [next]).length →
              tgt ∉ histFrontier (hist ++ [next]) j := by
            intro j hj0 hjh
            rw [hlen''] at hjh
            by_cases hj : j < hist.length
            · rw [histFrontier_append_lt hj]
              exact htgt j hj0 hj
            · have hjL : j = hist.length := by omega
              subst hjL
              rw [histFrontier_append_self]
              exact fun hm => hcont (contains_iff.2 hm)
          have hout'' : bfsLoop gn tgt fuel (next.foldl insertUnique hist.flatten)
              parents' next (hist.length - 1 + 1) =
              bfsLoop gn tgt fuel (hist ++ [next]).flatten parents'
                (histFrontier (hist ++ [next]) ((hist ++ [next]).length - 1))
                ((hist ++ [next]).length - 1) := by
            rw [hvis', hflat'', hlen'', Nat.add_sub_cancel, histFrontier_append_self]
            congr 1
            omega
          rcases ih (hist ++ [next]) parents'
              (bfsLoop gn tgt fuel (next.foldl insertUnique hist.flatten)
                parents' next (hist.length - 1 + 1))
              hlv'' (by rw [hlen'']; exact hpc'') htgt'' (by rw [hlen'']; omega)
              (by omega) hout'' with
            ⟨hist', hlen', hpre', hlv', hframes', htgt', hend'⟩
          refine ⟨hist', ?_, ?_, hlv', ?_, htgt', hend'⟩
          · rw [hout]
            simp only [List.length_cons]
            rw [hlen', hlen'']
            omega
          · have h1 : hist'.take hist.length = (hist ++ [next]).take hist.length :=
              take_of_take_front hpre' (by rw [hlen'']; omega)
            rw [h1, List.take_append_of_le_length (le_refl _), List.take_length]
          · intro i f hif
            rw [hout] at hif
            cases i with
            | zero =>
              simp only [List.getElem?_cons_zero] at hif
              injection hif with hif
              rw [hif] at hframe
              have := FrameSpec_of_take_front hpre' (by rw [hlen'']; omega)
                (le_refl _) hframe
              simpa using this
            | succ i' =>
              simp only [List.getElem?_cons_succ] at hif
              have h := hframes' i' f hif
              have hidx : (hist ++ [next]).length - 1 + i' =
                  hist.length - 1 + (i' + 1) := by
                rw [hlen'']; omega
              rwa [hidx] at h

theorem gnOf_mem_universe (B : Word) (ws : List Word) :
    ∀ p c, c ∈ gnOf B ws p → c ∈ ws ++ [toLowerCase B] := by
  intro p c hc
  unfold gnOf at hc
  rcases mem_getNeighbors.1 hc with ⟨_, _, i, _, hbk⟩
  rcases (mem_bucketsGet_patternBuckets.1 hbk).1 with ⟨hmem, _⟩ | ⟨_, rfl⟩
  · exact List.mem_append.2 (Or.inl hmem)
  · exact List.mem_append.2 (Or.inr (by simp))

/-- canonical description of the frame list the engine produces for
equal-length inputs. -/
theorem frames_spec (B E : Word) (ws : List Word) (hlen : B.length = E.length) :
    ∃ hist' : List (List Word),
      hist'.length = (frames B E ws).length + 1 ∧
      LevelsOK (gnOf B ws) (toLowerCase B) hist' ∧
      (∀ i f, (frames B E ws)[i]? = some f →
        FrameSpec (gnOf B ws) (toLowerCase E) hist' i f) ∧
      (∀ j, 0 < j → j + 1 < hist'.length → toLowerCase E ∉ histFrontier hist' j) ∧
      (histFrontier hist' (hist'.length - 1) = [] ∨
        toLowerCase E ∈ histFrontier hist' (hist'.length - 1)) := by
  have hout : frames B E ws = bfsLoop (gnOf B ws) (toLowerCase E) (ws.length + 2)
      [toLowerCase B] [] [toLowerCase B] 0 := by
    unfold frames gnOf
    rw [if_neg]
    intro h
    exact h (by rw [length_toLowerCase, length_toLowerCase, hlen])
  have hlvinit : LevelsOK (gnOf B ws) (toLowerCase B) [[toLowerCase B]] := by
    refine ⟨rfl, by simp, ?_⟩
    intro j hj
    simp at hj
  have hpcinit : ParentsCanon (gnOf B ws) [[toLowerCase B]] 1 [] := by
    constructor
    · intro c ps hps
      simp [parentsGet] at hps
    · intro j hj0 hj1
      omega
  have htgtinit : ∀ j, 0 < j → j < ([[toLowerCase B]] : List (List Word)).length →
      toLowerCase E ∉ histFrontier [[toLowerCase B]] j := by
    intro j hj0 hj1
    simp at hj1
    omega
  have hfuel : (ws ++ [toLowerCase B]).countP
      (fun u => decide (u ∉ ([[toLowerCase B]] : List (List Word)).flatten)) + 2 ≤
      ws.length + 2 := by
    rw [List.countP_append]
    have h1 : ([toLowerCase B] : List Word).countP
        (fun u => decide (u ∉ ([[toLowerCase B]] : List (List Word)).flatten)) = 0 := by
      simp
    have h2 := List.countP_le_length
      (p := fun u => decide (u ∉ ([[toLowerCase B]] : List (List Word)).flatten))
      (l := ws)
    omega
  rcases bfsLoop_spec (gnOf B ws) (toLowerCase B) (toLowerCase E)
      (ws ++ [toLowerCase B]) (gnOf_mem_universe B ws) (ws.length + 2)
      [[toLowerCase B]] [] (frames B E ws) hlvinit hpcinit htgtinit (by simp)
      hfuel hout with ⟨hist', h1, _, h3, h4, h5, h6⟩
  refine ⟨hist', by simp at h1; omega, h3, ?_, h5, h6⟩
  intro i f hif
  have := h4 i f hif
  simpa using this

/-! ### C3: layering invariant -/

/-- C3: in every emitted frame, every parent recorded for a word
discovered while expanding level k sits in the frontier of level k (the
level preceding the word's own), is recorded completely (the parents set
is exactly the previous frontier filtered to the words that reach the
child), and sits in no other frame's frontier; and every newly discovered
word was unvisited as of the start of its level (deferred marking): it is
not in the expanding frontier, not the begin word at level 0, and not in
the previous frame's visited snapshot. -/
theorem layering_invariant (B E : Word) (ws : List Word) :
    ∀ i f, (frames B E ws)[i]? = some f →
      (∀ c ps, parentsGet f.parentsSnapshot c = some ps →
        ∃ k, k ≤ i ∧ ∃ g, (frames B E ws)[k]? = some g ∧ c ∈ g.nextFrontier ∧
          ps = g.frontier.filter (fun p => decide (c ∈ gnOf B ws p)) ∧
          (∀ p ∈ ps, p ∈ g.frontier) ∧
          (∀ p ∈ ps, ∀ k' g', (frames B E ws)[k']? = some g' → k' ≠ k →
            p ∉ g'.frontier)) ∧
      (∀ c ∈ f.nextFrontier, c ∉ f.frontier ∧
        (i = 0 → c ≠ toLowerCase B) ∧
        (∀ i' g, i = i' + 1 → (frames B E ws)[i']? = some g →
          c ∉ g.visitedSnapshot)) := by
  intro i f hif
  by_cases hlen : B.length = E.length
  case neg =>
    rw [frames_of_length_mismatch ws hlen] at hif
    simp at hif
  case pos =>
  rcases frames_spec B E ws hlen with ⟨hist', hlen', hlv', hfs', htgt', hend'⟩
  obtain ⟨hfl, hff, hfn, hfv, hffd, hpcf⟩ := hfs' i f hif
  have hiframes : i < (frames B E ws).length := (List.getElem?_eq_some.1 hif).1
  have hhl : hist'.length = (frames B E ws).length + 1 := hlen'
  constructor
  · intro c ps hps
    rcases hpcf.sound c ps hps with ⟨j, hj0, hjm, hjh, hcm, hval⟩
    have hj1 : j - 1 < (frames B E ws).length := by omega
    refine ⟨j - 1, by omega, (frames B E ws)[j - 1],
      List.getElem?_eq_getElem hj1, ?_, ?_, ?_, ?_⟩
    all_goals
      obtain ⟨hgl, hgf, hgn, hgv, hgfd, hgpc⟩ :=
        hfs' (j - 1) ((frames B E ws)[j - 1]) (List.getElem?_eq_getElem hj1)
    · rw [hgn]
      have hj2 : j - 1 + 1 = j := by omega
      rw [hj2]
      exact hcm
    · rw [hgf]
      exact hval
    · intro p hp
      rw [hgf]
      rw [hval] at hp
      exact List.mem_of_mem_filter hp
    · intro p hp k' g' hg' hk'
      obtain ⟨_, hg'f, _, _, _, _⟩ := hfs' k' g' hg'
      rw [hg'f]
      intro hpmem
      have hpj : p ∈ histFrontier hist' (j - 1) := by
        rw [hval] at hp
        exact List.mem_of_mem_filter hp
      have hk'lt : k' < (frames B E ws).length := (List.getElem?_eq_some.1 hg').1
      rcases Nat.lt_or_ge (j - 1) k' with hor | hor
      · exact disjoint_histFrontier hlv'.nodup hor (by omega) hpj hpmem
      · have hor' : k' < j - 1 := by omega
        exact disjoint_histFrontier hlv'.nodup hor' (by omega) hpmem hpj
  · intro c hc
    rw [hfn] at hc
    have hstep := (hlv'.step i (by omega) c).1 hc
    refine ⟨?_, ?_, ?_⟩
    · rw [hff]
      intro hcf
      refine hstep.1 ?_
      refine mem_flatten_of_histFrontier (j := i) ?_ ?_
      · rw [List.length_take]
        omega
      · rw [histFrontier_take (by omega)]
        exact hcf
    · rintro rfl hcB
      have h0 : toLowerCase B ∈ histFrontier hist' 0 := by
        rw [hlv'.zero]
        simp
      rw [hcB] at hc
      exact disjoint_histFrontier hlv'.nodup (Nat.zero_lt_one) (by omega) h0 hc
    · intro i' g hii' hg
      obtain ⟨_, _, _, hgv, _, _⟩ := hfs' i' g hg
      rw [hgv]
      subst hii'
      exact hstep.1

/-! ### C6: exhaustion behaviour (corrected) -/

theorem frames_ne_nil {B E : Word} (ws : List Word) (hlen : B.length = E.length) :
    frames B E ws ≠ [] := by
  unfold frames
  rw [if_neg (fun h => h (by rw [length_toLowerCase, length_toLowerCase, hlen]))]
  have h2 : ws.length + 2 = (ws.length + 1) + 1 := rfl
  rw [h2, bfsLoop_succ]
  rw [if_neg (by simp)]
  split
  · simp
  · simp

/-- counterexample to C6 as stated: "aa" has no neighbors at all for the
dictionary ["bb"] (equal lengths), yet the frame sequence is not empty —
it consists of exactly one frame. -/
theorem exhaustion_counterexample :
    gnOf "aa" ["bb"] (toLowerCase "aa") = [] ∧ frames "aa" "bb" ["bb"] ≠ [] ∧
      (frames "aa" "bb" ["bb"]).length = 1 := by decide

/-- C6 (amended): for equal-length B and E the frame sequence is never
empty; the found flag is false on every frame that is not the last, so a
run that exhausts the frontier without finding E ends with found = false
on its last frame; and when B has no neighbors the sequence is exactly one
frame with an empty nextFrontier and found = false (not an empty
sequence). -/
theorem exhaustion_behaviour (B E : Word) (ws : List Word)
    (hlen : B.length = E.length) :
    frames B E ws ≠ [] ∧
    (∀ i f, (frames B E ws)[i]? = some f → i + 1 < (frames B E ws).length →
      f.found = false) ∧
    (gnOf B ws (toLowerCase B) = [] →
      frames B E ws = [⟨0, [toLowerCase B], [], [toLowerCase B], [], false⟩]) := by
  refine ⟨frames_ne_nil ws hlen, ?_, ?_⟩
  · intro i f hif hi1
    rcases frames_spec B E ws hlen with ⟨hist', hlen', hlv', hfs', htgt', hend'⟩
    obtain ⟨_, _, _, _, hffd, _⟩ := hfs' i f hif
    rw [hffd]
    have : toLowerCase E ∉ histFrontier hist' (i + 1) :=
      htgt' (i + 1) (by omega) (by omega)
    cases hb : (histFrontier hist' (i + 1)).contains (toLowerCase E) with
    | false => rfl
    | true => exact absurd (contains_iff.1 hb) this
  · intro hnb
    unfold gnOf at hnb
    unfold frames
    rw [if_neg (fun h => h (by rw [length_toLowerCase, length_toLowerCase, hlen]))]
    have h2 : ws.length + 2 = (ws.length + 1) + 1 := rfl
    rw [h2, bfsLoop_succ]
    rw [if_neg (by simp)]
    have hexp : expandFrontier
        (getNeighbors (patternBuckets ws B.length B) B.length)
        [toLowerCase B] [toLowerCase B] ([], []) = ([], []) := by
      simp [expandFrontier, hnb, expandNode]
    rw [hexp]
    simp [bfsLoop_frontier_nil]

/-- witness for C6 (amended) at a neighbor-less begin word. -/
theorem exhaustion_behaviour_witness :
    ("aa" : Word).length = ("bb" : Word).length ∧
      (frames "aa" "bb" ["bb"] ≠ [] ∧
      (∀ i f, (frames "aa" "bb" ["bb"])[i]? = some f →
        i + 1 < (frames "aa" "bb" ["bb"]).length → f.found = false) ∧
      (gnOf "aa" ["bb"] (toLowerCase "aa") = [] →
        frames "aa" "bb" ["bb"] =
          [⟨0, [toLowerCase "aa"], [], [toLowerCase "aa"], [], false⟩])) :=
  ⟨by decide, exhaustion_behaviour "aa" "bb" ["bb"] (by decide)⟩

/-- witness for C3 at the classic example, level-4 frame, child "cog". -/
theorem layering_invariant_witness :
    ∃ k, k ≤ 3 ∧ ∃ g,
      (frames "hit" "cog" ["hot", "dot", "dog", "lot", "log", "cog"])[k]? = some g ∧
      ("cog" : Word) ∈ g.nextFrontier ∧
      (["dog", "log"] : List Word) = g.frontier.filter
        (fun p => decide (("cog" : Word) ∈
          gnOf "hit" ["hot", "dot", "dog", "lot", "log", "cog"] p)) ∧
      (∀ p ∈ (["dog", "log"] : List Word), p ∈ g.frontier) ∧
      (∀ p ∈ (["dog", "log"] : List Word), ∀ k' g',
        (frames "hit" "cog" ["hot", "dot", "dog", "lot", "log", "cog"])[k']? =
          some g' → k' ≠ k → p ∉ g'.frontier) :=
  (layering_invariant "hit" "cog" ["hot", "dot", "dog", "lot", "log", "cog"] 3
    ⟨3, ["dog", "log"], ["cog"], ["hit", "hot", "dot", "lot", "dog", "log", "cog"],
      [("hot", ["hit"]), ("dot", ["hot"]), ("lot", ["hot"]), ("dog", ["dot"]),
        ("log", ["lot"]), ("cog", ["dog", "log"])], true⟩
    (by decide)).1 "cog" ["dog", "log"] (by decide)

/-! ### C10: the begin word has no parents -/

theorem allPaths_eq (B E : Word) (ws : List Word) :
    allPaths B E ws =
      match parentsGet (finalParents (frames B E ws)) (toLowerCase E) with
      | none => []
      | some _ => sortPaths (dfs (finalParents (frames B E ws)) (toLowerCase B)
          (dfsBound (finalParents (frames B E ws))) [toLowerCase E] [toLowerCase E]
          (toLowerCase E)) := rfl

theorem src_no_parents (B E : Word) (ws : List Word) :
    ∀ (i : Nat) (f : BFSFrame), (frames B E ws)[i]? = some f →
      parentsGet f.parentsSnapshot (toLowerCase B) = none := by
  intro i f hif
  by_cases hlen : B.length = E.length
  case neg =>
    rw [frames_of_length_mismatch ws hlen] at hif
    simp at hif
  case pos =>
  rcases frames_spec B E ws hlen with ⟨hist', hlen', hlv', hfs', htgt', hend'⟩
  obtain ⟨_, _, _, _, _, hpcf⟩ := hfs' i f hif
  cases hcase : parentsGet f.parentsSnapshot (toLowerCase B) with
  | none => rfl
  | some ps =>
    rcases hpcf.sound _ ps hcase with ⟨j, hj0, hjm, hjh, hcm, _⟩
    have h0 : toLowerCase B ∈ histFrontier hist' 0 := by
      rw [hlv'.zero]
      simp
    exact absurd hcm (fun hc =>
      disjoint_histFrontier hlv'.nodup hj0 hjh h0 hc)

/-- every result list of the backtracking search starts at the source:
the path list grows only when the recursion bottoms out at the source
word, and the path is then reversed. -/
theorem dfs_head {parents : Parents} {src : Word} :
    ∀ fuel path visiting w q, path.getLast? = some w →
      q ∈ dfs parents src fuel path visiting w → q.head? = some src := by
  intro fuel
  induction fuel with
  | zero =>
    intro path visiting w q _ hq
    simp [dfs] at hq
  | succ fuel ih =>
    intro path visiting w q hlast hq
    rw [dfs] at hq
    by_cases hw : w = src
    · rw [if_pos hw] at hq
      simp only [List.mem_singleton] at hq
      subst hq
      rw [List.head?_reverse, hlast, hw]
    · rw [if_neg hw] at hq
      cases hpg : parentsGet parents w with
      | none => rw [hpg] at hq; simp at hq
      | some ps =>
        rw [hpg] at hq
        rw [List.mem_flatten] at hq
        rcases hq with ⟨l, hl, hql⟩
        rcases List.mem_map.1 hl with ⟨p, hp, rfl⟩
        by_cases hpv : p ∈ visiting
        · rw [if_pos hpv] at hql
          cases hql
        · rw [if_neg hpv] at hql
          exact ih _ _ _ _ (by rw [List.getLast?_concat]) hql

/-- C10: the begin word never appears as a key of any frame's parents
snapshot, and consequently every path produced by the reconstructor
begins at the (lowercased) begin word: backtracking stops exactly there. -/
theorem begin_word_no_parents (B E : Word) (ws : List Word) :
    (∀ (i : Nat) (f : BFSFrame), (frames B E ws)[i]? = some f →
      parentsGet f.parentsSnapshot (toLowerCase B) = none) ∧
    (∀ q ∈ allPaths B E ws, q.head? = some (toLowerCase B)) := by
  refine ⟨src_no_parents B E ws, ?_⟩
  intro q hq
  rw [allPaths_eq] at hq
  cases hpg : parentsGet (finalParents (frames B E ws)) (toLowerCase E) with
  | none =>
    rw [hpg] at hq
    exact absurd hq (List.not_mem_nil q)
  | some ps =>
    rw [hpg] at hq
    have hq' := (List.perm_insertionSort pathLe _).subset hq
    exact dfs_head _ _ _ _ _ (by rfl) hq'

/-- witness for C10 at the classic example: both parts at concrete data. -/
theorem begin_word_no_parents_witness :
    parentsGet
        (⟨3, ["dog", "log"], ["cog"], ["hit", "hot", "dot", "lot", "dog", "log", "cog"],
          [("hot", ["hit"]), ("dot", ["hot"]), ("lot", ["hot"]), ("dog", ["dot"]),
            ("log", ["lot"]), ("cog", ["dog", "log"])], true⟩ : BFSFrame).parentsSnapshot
        (toLowerCase "hit") = none ∧
      (["hit", "hot", "dot", "dog", "cog"] : List Word).head? =
        some (toLowerCase "hit") :=
  ⟨(begin_word_no_parents "hit" "cog" ["hot", "dot", "dog", "lot", "log", "cog"]).1 3
      _ (by decide),
    (begin_word_no_parents "hit" "cog" ["hot", "dot", "dog", "lot", "log", "cog"]).2
      ["hit", "hot", "dot", "dog", "cog"] (by decide)⟩

/-! ### C8: begin equals end -/

/-- C8: when the begin word equals the end word, no frame ever reports
found = true and the path list is empty; the one-word ladder is never
produced. -/
theorem begin_equals_end (B : Word) (ws : List Word) :
    (∀ (i : Nat) (f : BFSFrame), (frames B B ws)[i]? = some f → f.found = false) ∧
      allPaths B B ws = [] := by
  constructor
  · intro i f hif
    rcases frames_spec B B ws rfl with ⟨hist', hlen', hlv', hfs', htgt', hend'⟩
    obtain ⟨_, _, _, _, hffd, _⟩ := hfs' i f hif
    rw [hffd]
    have hi : i < (frames B B ws).length := (List.getElem?_eq_some.1 hif).1
    have h0 : toLowerCase B ∈ histFrontier hist' 0 := by
      rw [hlv'.zero]
      simp
    have hnot : toLowerCase B ∉ histFrontier hist' (i + 1) := fun hc =>
      disjoint_histFrontier hlv'.nodup (Nat.succ_pos i) (by omega) h0 hc
    cases hb : (histFrontier hist' (i + 1)).contains (toLowerCase B) with
    | false => rfl
    | true => exact absurd (contains_iff.1 hb) hnot
  · rw [allPaths_eq]
    cases hpg : parentsGet (finalParents (frames B B ws)) (toLowerCase B) with
    | none => rfl
    | some ps =>
      exfalso
      unfold finalParents at hpg
      cases hlast : (frames B B ws).getLast? with
      | none => rw [hlast] at hpg; simp [parentsGet] at hpg
      | some f =>
        rw [hlast] at hpg
        rcases List.getLast?_eq_some_iff.1 hlast with ⟨l', hl'⟩
        have hif : (frames B B ws)[(frames B B ws).length - 1]? = some f := by
          rw [hl']
          simp
        have := src_no_parents B B ws _ f hif
        rw [this] at hpg
        cases hpg

/-- witness for C8: begin word "hot" equals end word, dictionary
containing a neighbor loop back to it. -/
theorem begin_equals_end_witness :
    (⟨0, ["hot"], ["hit"], ["hot", "hit"], [("hit", ["hot"])],
        false⟩ : BFSFrame).found = false ∧
      allPaths "hot" "hot" ["hot", "hit"] = [] :=
  ⟨(begin_equals_end "hot" ["hot", "hit"]).1 0 _ (by decide),
    (begin_equals_end "hot" ["hot", "hit"]).2⟩

/-! ### C9: termination -/

theorem bfsLoop_length_le (gn : Word → List Word) (tgt : Word) :
    ∀ fuel visited parents frontier level,
      (bfsLoop gn tgt fuel visited parents frontier level).length ≤ fuel := by
  intro fuel
  induction fuel with
  | zero => intro visited parents frontier level; simp [bfsLoop]
  | succ fuel ih =>
    intro visited parents frontier level
    rw [bfsLoop_succ]
    by_cases hF : frontier.isEmpty = true
    · rw [if_pos hF]; simp
    · rw [if_neg hF]
      by_cases hcont : (expandFrontier gn visited frontier ([], parents)).1.contains
          tgt = true
      · rw [if_pos hcont]; simp
      · rw [if_neg hcont]
        simp only [List.length_cons]
        have := ih ((expandFrontier gn visited frontier ([], parents)).1.foldl
            insertUnique visited)
          (expandFrontier gn visited frontier ([], parents)).2
          (expandFrontier gn visited frontier ([], parents)).1 (level + 1)
        omega

/-- the loop result does not depend on the fuel, as soon as the fuel
exceeds the number of not-yet-visited universe words plus two: each
iteration either stops, empties its frontier, or strictly enlarges the
visited set within the universe. -/
theorem bfsLoop_fuel_congr (gn : Word → List Word) (tgt : Word) (U : List Word)
    (hU : ∀ p c, c ∈ gn p → c ∈ U) :
    ∀ fuel₁ fuel₂ visited parents frontier level,
      U.countP (fun u => decide (u ∉ visited)) + 2 ≤ fuel₁ →
      U.countP (fun u => decide (u ∉ visited)) + 2 ≤ fuel₂ →
      bfsLoop gn tgt fuel₁ visited parents frontier level =
        bfsLoop gn tgt fuel₂ visited parents frontier level := by
  intro fuel₁
  induction fuel₁ with
  | zero =>
    intro fuel₂ visited parents frontier level h1 _
    omega
  | succ fuel₁ ih =>
    intro fuel₂ visited parents frontier level h1 h2
    cases fuel₂ with
    | zero => omega
    | succ fuel₂ =>
      rw [bfsLoop_succ, bfsLoop_succ]
      by_cases hF : frontier.isEmpty = true
      · rw [if_pos hF, if_pos hF]
      · rw [if_neg hF, if_neg hF]
        generalize hfst : (expandFrontier gn visited frontier ([], parents)).1 = next
        generalize hsnd : (expandFrontier gn visited frontier ([], parents)).2 =
          parents'
        by_cases hcont : next.contains tgt = true
        · rw [if_pos hcont, if_pos hcont]
        · rw [if_neg hcont, if_neg hcont]
          congr 1
          by_cases hnil : next = []
          · subst hnil
            rw [bfsLoop_frontier_nil, bfsLoop_frontier_nil]
          · have hmem : ∀ c, c ∈ next ↔
                ((∃ p ∈ frontier, c ∈ gn p) ∧ c ∉ visited) := by
              intro c
              rw [← hfst, expandFrontier_fst_mem]
              simp
            rcases List.exists_mem_of_ne_nil next hnil with ⟨c₀, hc₀⟩
            have hc₀U : c₀ ∈ U := by
              rcases ((hmem c₀).1 hc₀).1 with ⟨p, _, hm⟩
              exact hU p c₀ hm
            have hlt : U.countP
                  (fun u => decide (u ∉ next.foldl insertUnique visited)) <
                U.countP (fun u => decide (u ∉ visited)) := by
              refine countP_lt_of_witness ?_ hc₀U ?_ ?_
              · intro a ha
                simp only [decide_eq_true_eq, mem_foldl_insertUnique] at ha ⊢
                exact fun hm => ha (Or.inl hm)
              · simp only [decide_eq_true_eq]
                exact ((hmem c₀).1 hc₀).2
              · simp only [decide_eq_false_iff_not, Decidable.not_not,
                  mem_foldl_insertUnique]
                exact Or.inr hc₀
            exact ih fuel₂ _ parents' next (level + 1) (by omega) (by omega)

theorem frames_eq_bfsLoop {B E : Word} (ws : List Word)
    (hlen : B.length = E.length) :
    frames B E ws = bfsLoop (gnOf B ws) (toLowerCase E) (ws.length + 2)
      [toLowerCase B] [] [toLowerCase B] 0 := by
  unfold frames gnOf
  rw [if_neg (fun h => h (by rw [length_toLowerCase, length_toLowerCase, hlen]))]

theorem countP_universe_le (B : Word) (ws : List Word) :
    (ws ++ [toLowerCase B]).countP
        (fun u => decide (u ∉ ([toLowerCase B] : List Word))) + 2 ≤
      ws.length + 2 := by
  rw [List.countP_append]
  have h1 : ([toLowerCase B] : List Word).countP
      (fun u => decide (u ∉ ([toLowerCase B] : List Word))) = 0 := by simp
  have h2 := List.countP_le_length
    (p := fun u => decide (u ∉ ([toLowerCase B] : List Word))) (l := ws)
  omega

/-- C9: the BFS loop terminates on every input: the frame sequence is
finite (its length is bounded by the dictionary size plus two), and for
equal-length inputs the loop run by the engine has already reached its
natural stopping point — giving the loop any larger fuel produces exactly
the same frame sequence. -/
theorem bfs_terminates (B E : Word) (ws : List Word) :
    (frames B E ws).length ≤ ws.length + 2 ∧
    (B.length = E.length →
      ∀ fuel, ws.length + 2 ≤ fuel →
        bfsLoop (gnOf B ws) (toLowerCase E) fuel [toLowerCase B] []
          [toLowerCase B] 0 = frames B E ws) := by
  constructor
  · by_cases hlen : B.length = E.length
    · rw [frames_eq_bfsLoop ws hlen]
      exact bfsLoop_length_le _ _ _ _ _ _ _
    · rw [frames_of_length_mismatch ws hlen]
      simp
  · intro hlen fuel hfuel
    rw [frames_eq_bfsLoop ws hlen]
    exact bfsLoop_fuel_congr (gnOf B ws) (toLowerCase E) (ws ++ [toLowerCase B])
      (gnOf_mem_universe B ws) fuel (ws.length + 2) [toLowerCase B] []
      [toLowerCase B] 0
      (by have := countP_universe_le B ws; omega)
      (countP_universe_le B ws)

/-- witness for C9 at the classic example with a larger fuel. -/
theorem bfs_terminates_witness :
    (frames "hit" "cog" ["hot", "dot", "dog", "lot", "log", "cog"]).length ≤ 8 ∧
      bfsLoop (gnOf "hit" ["hot", "dot", "dog", "lot", "log", "cog"])
        (toLowerCase "cog") 20 [toLowerCase "hit"] [] [toLowerCase "hit"] 0 =
        frames "hit" "cog" ["hot", "dot", "dog", "lot", "log", "cog"] :=
  ⟨(bfs_terminates "hit" "cog" ["hot", "dot", "dog", "lot", "log", "cog"]).1,
    (bfs_terminates "hit" "cog" ["hot", "dot", "dog", "lot", "log", "cog"]).2
      (by decide) 20 (by decide)⟩

/-! ### Ladder lemmas over a canonical parents map -/

theorem level_unique {hist : List (List Word)} (hnd : hist.flatten.Nodup)
    {a b : Nat} {c : Word} (ha : a < hist.length) (hb : b < hist.length)
    (hca : c ∈ histFrontier hist a) (hcb : c ∈ histFrontier hist b) : a = b := by
  rcases Nat.lt_trichotomy a b with h | h | h
  · exact absurd (disjoint_histFrontier hnd h hb hca hcb) (fun h => h)
  · exact h
  · exact absurd (disjoint_histFrontier hnd h ha hcb hca) (fun h => h)

theorem mem_flatten_take {hist : List (List Word)} {n : Nat} {c : Word}
    (hc : c ∈ (hist.take n).flatten) :
    ∃ j, j < n ∧ j < hist.length ∧ c ∈ histFrontier hist j := by
  rw [List.mem_flatten] at hc
  rcases hc with ⟨l, hl, hcl⟩
  rcases List.mem_iff_getElem?.1 hl with ⟨j, hj⟩
  rw [List.getElem?_take] at hj
  have hjn : j < n := by
    by_contra h
    rw [if_neg h] at hj
    cases hj
  rw [if_pos hjn] at hj
  have hjh : j < hist.length := (List.getElem?_eq_some.1 hj).1
  refine ⟨j, hjn, hjh, ?_⟩
  unfold histFrontier
  rw [List.getD_eq_getElem?_getD, hj]
  exact hcl

theorem Ladder.getLast_eq {parents : Parents} {src : Word} :
    ∀ {l w}, Ladder parents src l w → l.getLast? = some w := by
  intro l w hlad
  induction hlad with
  | base => rfl
  | step hlad' hget hp ih => rw [List.getLast?_concat]

theorem Ladder.head_eq {parents : Parents} {src : Word} :
    ∀ {l w}, Ladder parents src l w → l.head? = some src := by
  intro l w hlad
  induction hlad with
  | base => rfl
  | step hlad' hget hp ih =>
    rename_i l' p c ps
    cases l' with
    | nil => simp at ih
    | cons a rest => simpa using ih

theorem Ladder.length_level {parents : Parents} {src : Word} {gn : Word → List Word}
    {hist : List (List Word)} (hnd : hist.flatten.Nodup)
    (hzero : histFrontier hist 0 = [src]) (hlen0 : 0 < hist.length)
    (hsound : ∀ c ps, parentsGet parents c = some ps →
      ∃ j, 0 < j ∧ j < hist.length ∧ c ∈ histFrontier hist j ∧
        ps = (histFrontier hist (j - 1)).filter (fun p => decide (c ∈ gn p))) :
    ∀ {l w}, Ladder parents src l w →
      ∃ j, j < hist.length ∧ w ∈ histFrontier hist j ∧ l.length = j + 1 := by
  intro l w hlad
  induction hlad with
  | base => exact ⟨0, hlen0, by rw [hzero]; simp, rfl⟩
  | step hlad' hget hp ih =>
    rcases ih with ⟨j', hj', hwj', hlen'⟩
    rcases hsound _ _ hget with ⟨j, hj0, hjh, hcj, hval⟩
    rw [hval] at hp
    have hpj : _ ∈ histFrontier hist (j - 1) := List.mem_of_mem_filter hp
    have hj'eq : j' = j - 1 := level_unique hnd hj' (by omega) hwj' hpj
    refine ⟨j, hjh, hcj, ?_⟩
    rw [List.length_append, hlen']
    simp
    omega

theorem Ladder.chain_gn {parents : Parents} {src : Word} {gn : Word → List Word}
    {hist : List (List Word)}
    (hsound : ∀ c ps, parentsGet parents c = some ps →
      ∃ j, 0 < j ∧ j < hist.length ∧ c ∈ histFrontier hist j ∧
        ps = (histFrontier hist (j - 1)).filter (fun p => decide (c ∈ gn p))) :
    ∀ {l w}, Ladder parents src l w → List.Chain' (fun u v => v ∈ gn u) l := by
  intro l w hlad
  induction hlad with
  | base => simp
  | step hlad' hget hp ih =>
    refine List.Chain'.append ih (by simp) ?_
    intro x hx y hy
    rw [Ladder.getLast_eq hlad'] at hx
    simp only [Option.mem_def, Option.some.injEq] at hx
    simp only [List.head?_cons, Option.mem_def, Option.some.injEq] at hy
    subst hx
    subst hy
    rcases hsound _ _ hget with ⟨j, _, _, _, hval⟩
    rw [hval] at hp
    have := (List.mem_filter.1 hp).2
    simpa using this

theorem ladder_exists {parents : Parents} {src : Word} {gn : Word → List Word}
    {hist : List (List Word)} (hnd : hist.flatten.Nodup)
    (hzero : histFrontier hist 0 = [src])
    (hstep : ∀ j, j + 1 < hist.length → ∀ c, c ∈ histFrontier hist (j + 1) ↔
      (c ∉ (hist.take (j + 1)).flatten ∧ ∃ p ∈ histFrontier hist j, c ∈ gn p))
    (hsound : ∀ c ps, parentsGet parents c = some ps →
      ∃ j, 0 < j ∧ j < hist.length ∧ c ∈ histFrontier hist j ∧
        ps = (histFrontier hist (j - 1)).filter (fun p => decide (c ∈ gn p)))
    (hcomplete : ∀ j, 0 < j → j < hist.length → ∀ c ∈ histFrontier hist j,
      parentsGet parents c ≠ none) :
    ∀ j, j < hist.length → ∀ c ∈ histFrontier hist j,
      ∃ l, Ladder parents src l c ∧ l.length = j + 1 := by
  intro j
  induction j with
  | zero =>
    intro _ c hc
    rw [hzero] at hc
    rcases List.mem_singleton.1 hc with rfl
    exact ⟨[c], Ladder.base, rfl⟩
  | succ j ih =>
    intro hjh c hc
    have hget : parentsGet parents c ≠ none :=
      hcomplete (j + 1) (by omega) hjh c hc
    cases hps : parentsGet parents c with
    | none => exact absurd hps hget
    | some ps =>
      rcases hsound _ _ hps with ⟨j₂, hj₂0, hj₂h, hcj₂, hval⟩
      have hj₂eq : j₂ = j + 1 := level_unique hnd hj₂h hjh hcj₂ hc
      subst hj₂eq
      rcases ((hstep j (by omega) c).1 hc).2 with ⟨p, hpj, hpgn⟩
      have hpmem : p ∈ ps := by
        rw [hval]
        refine List.mem_filter.2 ⟨?_, by simpa using hpgn⟩
        simpa using hpj
      rcases ih (by omega) p hpj with ⟨l, hl, hlen⟩
      exact ⟨l ++ [c], Ladder.step hl hps hpmem, by
        rw [List.length_append, hlen]; simp⟩

/-! ### Backtracking search: soundness, completeness, distinctness -/

theorem dfs_sound {parents : Parents} {src : Word} :
    ∀ fuel (path visiting : List Word) (w : Word) (q : List Word),
      path.getLast? = some w → q ∈ dfs parents src fuel path visiting w →
      ∃ l, Ladder parents src l w ∧ q = l ++ path.reverse.tail := by
  intro fuel
  induction fuel with
  | zero =>
    intro path visiting w q _ hq
    simp [dfs] at hq
  | succ fuel ih =>
    intro path visiting w q hlast hq
    rw [dfs] at hq
    by_cases hw : w = src
    · rw [if_pos hw] at hq
      simp only [List.mem_singleton] at hq
      subst hq
      refine ⟨[w], hw ▸ Ladder.base, ?_⟩
      have h1 : path.reverse.head? = some w := by
        rw [List.head?_reverse, hlast]
      rw [← List.cons_head?_tail h1]
      rfl
    · rw [if_neg hw] at hq
      cases hpg : parentsGet parents w with
      | none => rw [hpg] at hq; simp at hq
      | some ps =>
        rw [hpg] at hq
        rw [List.mem_flatten] at hq
        rcases hq with ⟨lst, hlst, hqlst⟩
        rcases List.mem_map.1 hlst with ⟨p, hp, rfl⟩
        by_cases hpv : p ∈ visiting
        · rw [if_pos hpv] at hqlst
          cases hqlst
        · rw [if_neg hpv] at hqlst
          rcases ih (path ++ [p]) (visiting ++ [p]) p q
            (List.getLast?_concat _) hqlst with ⟨l, hl, hqeq⟩
          refine ⟨l ++ [w], Ladder.step hl hpg hp, ?_⟩
          rw [hqeq]
          have h1 : (path ++ [p]).reverse.tail = path.reverse := by
            rw [List.reverse_append]
            rfl
          have hh : path.reverse.head? = some w := by
            rw [List.head?_reverse, hlast]
          have h2 : [w] ++ path.reverse.tail = path.reverse := by
            rw [List.singleton_append]
            exact List.cons_head?_tail hh
          rw [h1, List.append_assoc, h2]

theorem dfs_complete {parents : Parents} {src : Word} {gn : Word → List Word}
    {hist : List (List Word)} (hnd : hist.flatten.Nodup)
    (hsound : ∀ c ps, parentsGet parents c = some ps →
      ∃ j, 0 < j ∧ j < hist.length ∧ c ∈ histFrontier hist j ∧
        ps = (histFrontier hist (j - 1)).filter (fun p => decide (c ∈ gn p)))
    (hsrc : parentsGet parents src = none) :
    ∀ fuel (path visiting : List Word) (w : Word) (l : List Word) (j : Nat),
      Ladder parents src l w → path.getLast? = some w →
      j < hist.length → w ∈ histFrontier hist j → j + 1 ≤ fuel →
      (∀ x ∈ visiting, ∃ jx, jx < hist.length ∧ x ∈ histFrontier hist jx ∧ j ≤ jx) →
      l ++ path.reverse.tail ∈ dfs parents src fuel path visiting w := by
  intro fuel
  induction fuel with
  | zero =>
    intro path visiting w l j _ _ _ _ hfuel _
    omega
  | succ fuel ih =>
    intro path visiting w l j hlad hlast hjh hwj hfuel hvis
    rw [dfs]
    cases hlad with
    | base =>
      rw [if_pos rfl]
      simp only [List.mem_singleton]
      have h1 : path.reverse.head? = some src := by
        rw [List.head?_reverse, hlast]
      rw [← List.cons_head?_tail h1]
      rfl
    | step hlad' hget hp =>
      rename_i l' p ps
      rw [if_neg (fun h => by rw [h, hsrc] at hget; cases hget)]
      rw [hget]
      rw [List.mem_flatten]
      rcases hsound _ _ hget with ⟨j₂, hj₂0, hj₂h, hcj₂, hval⟩
      have hj₂eq : j₂ = j := level_unique hnd hj₂h hjh hcj₂ hwj
      subst hj₂eq
      have hpj' : p ∈ histFrontier hist (j₂ - 1) := by
        rw [hval] at hp
        exact List.mem_of_mem_filter hp
      have hpnv : p ∉ visiting := by
        intro hmem
        rcases hvis p hmem with ⟨jx, hjxh, hpx, hjjx⟩
        have : jx = j₂ - 1 := level_unique hnd hjxh (by omega) hpx hpj'
        omega
      refine ⟨_, List.mem_map.2 ⟨p, hp, rfl⟩, ?_⟩
      rw [if_neg hpnv]
      have harr : l' ++ [w] ++ path.reverse.tail =
          l' ++ (path ++ [p]).reverse.tail := by
        have h1 : (path ++ [p]).reverse.tail = path.reverse := by
          rw [List.reverse_append]
          rfl
        have hh : path.reverse.head? = some w := by
          rw [List.head?_reverse, hlast]
        have h2 : [w] ++ path.reverse.tail = path.reverse := by
          rw [List.singleton_append]
          exact List.cons_head?_tail hh
        rw [h1, List.append_assoc, h2]
      rw [harr]
      refine ih (path ++ [p]) (visiting ++ [p]) p l' (j₂ - 1) hlad'
        (List.getLast?_concat _) (by omega) hpj' (by omega) ?_
      intro x hx
      rcases List.mem_append.1 hx with hx | hx
      · rcases hvis x hx with ⟨jx, h1, h2, h3⟩
        exact ⟨jx, h1, h2, by omega⟩
      · rcases List.mem_singleton.1 hx with rfl
        exact ⟨j₂ - 1, by omega, hpj', le_refl _⟩

theorem dfs_nodup {parents : Parents} {src : Word} {gn : Word → List Word}
    {hist : List (List Word)} (hnd : hist.flatten.Nodup)
    (hsound : ∀ c ps, parentsGet parents c = some ps →
      ∃ j, 0 < j ∧ j < hist.length ∧ c ∈ histFrontier hist j ∧
        ps = (histFrontier hist (j - 1)).filter (fun p => decide (c ∈ gn p))) :
    ∀ fuel (path visiting : List Word) (w : Word),
      (dfs parents src fuel path visiting w).Nodup := by
  intro fuel
  induction fuel with
  | zero =>
    intro path visiting w
    simp [dfs]
  | succ fuel ih =>
    intro path visiting w
    rw [dfs]
    by_cases hw : w = src
    · rw [if_pos hw]
      simp
    · rw [if_neg hw]
      cases hpg : parentsGet parents w with
      | none => simp
      | some ps =>
        rw [List.nodup_flatten]
        constructor
        · intro l hl
          rcases List.mem_map.1 hl with ⟨p, _, rfl⟩
          by_cases hpv : p ∈ visiting
          · rw [if_pos hpv]
            exact List.nodup_nil
          · rw [if_neg hpv]
            exact ih _ _ _
        · rw [List.pairwise_map]
          have hps_nodup : ps.Nodup := by
            rcases hsound _ _ hpg with ⟨j, _, _, _, hval⟩
            rw [hval]
            exact (nodup_histFrontier hnd _).filter _
          refine hps_nodup.imp_of_mem ?_
          intro p₁ p₂ _ _ hne
          rw [List.disjoint_left]
          intro q hq₁ hq₂
          by_cases h₁ : p₁ ∈ visiting
          · rw [if_pos h₁] at hq₁
            cases hq₁
          · by_cases h₂ : p₂ ∈ visiting
            · rw [if_pos h₂] at hq₂
              cases hq₂
            · rw [if_neg h₁] at hq₁
              rw [if_neg h₂] at hq₂
              rcases dfs_sound fuel _ _ _ _ (List.getLast?_concat _) hq₁ with
                ⟨l₁, hl₁, he₁⟩
              rcases dfs_sound fuel _ _ _ _ (List.getLast?_concat _) hq₂ with
                ⟨l₂, hl₂, he₂⟩
              have ht : (path ++ [p₁]).reverse.tail = (path ++ [p₂]).reverse.tail := by
                rw [List.reverse_append, List.reverse_append]
                rfl
              rw [he₁, ht] at he₂
              have hl12 : l₁ = l₂ := List.append_cancel_right he₂
              have h1 : l₁.getLast? = some p₁ := Ladder.getLast_eq hl₁
              have h2 : l₂.getLast? = some p₂ := Ladder.getLast_eq hl₂
              rw [hl12, h2] at h1
              exact hne (Option.some.inj h1).symm

/-! ### Reachability bounds against the BFS levels -/

theorem chain'_getElem? {R : Word → Word → Prop} {l : List Word} (h : List.Chain' R l)
    {i : Nat} {x y : Word} (hx : l[i]? = some x) (hy : l[i + 1]? = some y) : R x y := by
  rcases List.getElem?_eq_some.1 hx with ⟨h1, e1⟩
  rcases List.getElem?_eq_some.1 hy with ⟨h2, e2⟩
  have hh := List.chain'_iff_get.1 h i (by omega)
  simp only [List.get_eq_getElem] at hh
  rw [e1, e2] at hh
  exact hh

/-- every word on a neighbor walk from the source either has a BFS level
bounded by its walk index, or the walk passed through the deepest computed
level at an index at least that level. -/
theorem reach_level {gn : Word → List Word} {src : Word} {hist : List (List Word)}
    (hlv : LevelsOK gn src hist) (hlen0 : 0 < hist.length) {r : List Word}
    (hhead : r.head? = some src) (hchain : List.Chain' (fun u v => v ∈ gn u) r) :
    ∀ i x, r[i]? = some x →
      (∃ j, j ≤ i ∧ j < hist.length ∧ x ∈ histFrontier hist j) ∨
      (∃ i' y, i' ≤ i ∧ r[i']? = some y ∧
        y ∈ histFrontier hist (hist.length - 1) ∧ hist.length - 1 ≤ i') := by
  intro i
  induction i with
  | zero =>
    intro x hx
    rw [List.head?_eq_getElem?] at hhead
    rw [hhead] at hx
    injection hx with hx
    subst hx
    exact Or.inl ⟨0, le_refl _, hlen0, by rw [hlv.zero]; simp⟩
  | succ i ih =>
    intro x hx
    have hi1 : i + 1 < r.length := (List.getElem?_eq_some.1 hx).1
    have hy : ∃ y, r[i]? = some y := by
      have : i < r.length := by omega
      exact ⟨r[i], List.getElem?_eq_getElem this⟩
    rcases hy with ⟨y, hy⟩
    rcases ih y hy with ⟨j, hji, hjh, hyj⟩ | ⟨i', z, hi', hz, hzl, hdl⟩
    · have hedge : x ∈ gn y := chain'_getElem? hchain hy hx
      by_cases hj1 : j + 1 < hist.length
      · by_cases hxv : x ∈ (hist.take (j + 1)).flatten
        · rcases mem_flatten_take hxv with ⟨j', hj'n, hj'h, hxj'⟩
          exact Or.inl ⟨j', by omega, hj'h, hxj'⟩
        · have hst : x ∈ histFrontier hist (j + 1) :=
            (hlv.step j hj1 x).2 ⟨hxv, y, hyj, hedge⟩
          exact Or.inl ⟨j + 1, by omega, by omega, hst⟩
      · have hje : j = hist.length - 1 := by omega
        exact Or.inr ⟨i, y, by omega, hy, hje ▸ hyj, by omega⟩
    · exact Or.inr ⟨i', z, by omega, hz, hzl, hdl⟩

/-- lower bound: when the target sits in the deepest computed level and
nowhere earlier, every neighbor walk from source to target has at least as
many words as there are levels. -/
theorem ladderSeq_length_ge {gn : Word → List Word} {src tgt : Word}
    {hist : List (List Word)} (hlv : LevelsOK gn src hist) (hlen0 : 0 < hist.length)
    (htgtmid : ∀ j, 0 < j → j + 1 < hist.length → tgt ∉ histFrontier hist j)
    (hne : src ≠ tgt) :
    ∀ r, IsLadderSeq gn src tgt r → hist.length ≤ r.length := by
  intro r hr
  obtain ⟨hhead, hlast, hchain⟩ := hr
  have hrne : r ≠ [] := by
    intro h
    rw [h] at hhead
    cases hhead
  have hrlen : 0 < r.length := List.length_pos.2 hrne
  have hlast' : r[r.length - 1]? = some tgt := by
    rw [← List.getLast?_eq_getElem?]
    exact hlast
  rcases reach_level hlv hlen0 hhead hchain (r.length - 1) tgt hlast' with
    ⟨j, hji, hjh, htj⟩ | ⟨i', y, hi', _, _, hdl⟩
  · by_cases hje : j = hist.length - 1
    · omega
    · have hj1 : j + 1 < hist.length := by omega
      by_cases hj0 : j = 0
      · subst hj0
        rw [hlv.zero] at htj
        exact absurd (List.mem_singleton.1 htj).symm hne
      · exact absurd htj (htgtmid j (by omega) hj1)
  · omega

/-- when the target is reachable at all by a neighbor walk and differs
from the source, the run cannot have ended by exhaustion: the target sits
in the deepest level, which is at depth at least one. -/
theorem found_of_reachable {gn : Word → List Word} {src tgt : Word}
    {hist : List (List Word)} (hlv : LevelsOK gn src hist) (hlen0 : 0 < hist.length)
    (htgtmid : ∀ j, 0 < j → j + 1 < hist.length → tgt ∉ histFrontier hist j)
    (hend : histFrontier hist (hist.length - 1) = [] ∨
      tgt ∈ histFrontier hist (hist.length - 1))
    (hne : src ≠ tgt) {r : List Word} (hr : IsLadderSeq gn src tgt r) :
    tgt ∈ histFrontier hist (hist.length - 1) ∧ 1 ≤ hist.length - 1 := by
  obtain ⟨hhead, hlast, hchain⟩ := hr
  have hrne : r ≠ [] := by
    intro h
    rw [h] at hhead
    cases hhead
  have hrlen : 0 < r.length := List.length_pos.2 hrne
  have hlast' : r[r.length - 1]? = some tgt := by
    rw [← List.getLast?_eq_getElem?]
    exact hlast
  have hmain : tgt ∈ histFrontier hist (hist.length - 1) := by
    rcases reach_level hlv hlen0 hhead hchain (r.length - 1) tgt hlast' with
      ⟨j, hji, hjh, htj⟩ | ⟨i', y, hi', hy, hyl, hdl⟩
    · by_cases hj0 : j = 0
      · subst hj0
        rw [hlv.zero] at htj
        exact absurd (List.mem_singleton.1 htj).symm hne
      · by_cases hj1 : j + 1 < hist.length
        · exact absurd htj (htgtmid j (by omega) hj1)
        · have : j = hist.length - 1 := by omega
          exact this ▸ htj
    · rcases hend with hemp | hmem
      · rw [hemp] at hyl
        cases hyl
      · exact hmem
  refine ⟨hmain, ?_⟩
  by_contra h
  have h1 : hist.length = 1 := by omega
  rw [h1] at hmain
  simp only [Nat.sub_self] at hmain
  rw [hlv.zero] at hmain
  exact hne (List.mem_singleton.1 hmain).symm

/-- canonical description of the final parents map produced by the engine
for equal-length inputs. -/
theorem finalParents_canon (B E : Word) (ws : List Word)
    (hlen : B.length = E.length) :
    ∃ hist' : List (List Word),
      hist'.length = (frames B E ws).length + 1 ∧
      LevelsOK (gnOf B ws) (toLowerCase B) hist' ∧
      (∀ j, 0 < j → j + 1 < hist'.length → toLowerCase E ∉ histFrontier hist' j) ∧
      (histFrontier hist' (hist'.length - 1) = [] ∨
        toLowerCase E ∈ histFrontier hist' (hist'.length - 1)) ∧
      (∀ c ps, parentsGet (finalParents (frames B E ws)) c = some ps →
        ∃ j, 0 < j ∧ j < hist'.length ∧ c ∈ histFrontier hist' j ∧
          ps = (histFrontier hist' (j - 1)).filter
            (fun p => decide (c ∈ gnOf B ws p))) ∧
      (∀ j, 0 < j → j < hist'.length → ∀ c ∈ histFrontier hist' j,
        parentsGet (finalParents (frames B E ws)) c ≠ none) := by
  rcases frames_spec B E ws hlen with ⟨hist', hlen', hlv', hfs', htgt', hend'⟩
  have hne : frames B E ws ≠ [] := frames_ne_nil ws hlen
  have hflen : 0 < (frames B E ws).length := List.length_pos.2 hne
  have hlastidx : (frames B E ws)[(frames B E ws).length - 1]? =
      some ((frames B E ws).getLast hne) := by
    rw [← List.getLast?_eq_getElem?]
    exact List.getLast?_eq_getLast _ hne
  obtain ⟨_, _, _, _, _, hpcf⟩ :=
    hfs' ((frames B E ws).length - 1) ((frames B E ws).getLast hne) hlastidx
  have hfinal : finalParents (frames B E ws) =
      ((frames B E ws).getLast hne).parentsSnapshot := by
    unfold finalParents
    rw [List.getLast?_eq_getLast _ hne]
  refine ⟨hist', hlen', hlv', htgt', hend', ?_, ?_⟩
  · intro c ps hps
    rw [hfinal] at hps
    rcases hpcf.sound c ps hps with ⟨j, hj0, hjm, hjh, hcm, hval⟩
    exact ⟨j, hj0, hjh, hcm, hval⟩
  · intro j hj0 hjh c hc
    rw [hfinal]
    exact hpcf.complete j hj0 (by omega) hjh c hc

/-! ### C2: minimality -/

/-- C2: every path the reconstructor returns has exactly
(index of the first frame with found = true) + 2 words; that first found
frame is the last frame. In particular no longer (or shorter) path is
ever returned. -/
theorem minimality (B E : Word) (ws : List Word) :
    ∀ q ∈ allPaths B E ws,
      ∃ f, (frames B E ws).getLast? = some f ∧ f.found = true ∧
        foundIdx (frames B E ws) = (frames B E ws).length - 1 ∧
        q.length = foundIdx (frames B E ws) + 2 := by
  intro q hq
  by_cases hlen : B.length = E.length
  case neg =>
    rw [(length_mismatch_early_exit B E ws hlen).2] at hq
    cases hq
  case pos =>
  rw [allPaths_eq] at hq
  have hne : frames B E ws ≠ [] := frames_ne_nil ws hlen
  have hflen : 0 < (frames B E ws).length := List.length_pos.2 hne
  rcases frames_spec B E ws hlen with ⟨hist', hlen', hlv', hfs', htgt', hend'⟩
  have hlastidx : (frames B E ws)[(frames B E ws).length - 1]? =
      some ((frames B E ws).getLast hne) := by
    rw [← List.getLast?_eq_getElem?]
    exact List.getLast?_eq_getLast _ hne
  obtain ⟨hflv, hffr, hfnx, hfvs, hffd, hpcf⟩ :=
    hfs' ((frames B E ws).length - 1) ((frames B E ws).getLast hne) hlastidx
  have hfinal : finalParents (frames B E ws) =
      ((frames B E ws).getLast hne).parentsSnapshot := by
    unfold finalParents
    rw [List.getLast?_eq_getLast _ hne]
  cases hpg : parentsGet (finalParents (frames B E ws)) (toLowerCase E) with
  | none =>
    rw [hpg] at hq
    exact absurd hq (List.not_mem_nil q)
  | some ps =>
    rw [hpg] at hq
    have hq' := (List.perm_insertionSort pathLe _).subset hq
    rcases dfs_sound _ _ _ _ _ (by rfl) hq' with ⟨l, hlad, hqeq⟩
    have hql : q = l := by
      rw [hqeq]
      simp
    subst hql
    have hsound' : ∀ c ps', parentsGet (finalParents (frames B E ws)) c =
        some ps' →
        ∃ j, 0 < j ∧ j < hist'.length ∧ c ∈ histFrontier hist' j ∧
          ps' = (histFrontier hist' (j - 1)).filter
            (fun p => decide (c ∈ gnOf B ws p)) := by
      intro c ps' hc
      rw [hfinal] at hc
      rcases hpcf.sound c ps' hc with ⟨j, hj0, hjm, hjh, hcm, hval⟩
      exact ⟨j, hj0, hjh, hcm, hval⟩
    rcases hsound' _ _ hpg with ⟨j₂, hj₂0, hj₂h, htj₂, _⟩
    have hj₂d : j₂ = hist'.length - 1 := by
      by_contra hne2
      exact htgt' j₂ hj₂0 (by omega) htj₂
    have hlen0 : 0 < hist'.length := by omega
    rcases Ladder.length_level hlv'.nodup hlv'.zero hlen0 hsound' hlad with
      ⟨j, hjh, htj, hlenq⟩
    have hjd : j = hist'.length - 1 :=
      (level_unique hlv'.nodup hjh hj₂h htj htj₂).trans hj₂d
    have hlastfound : ((frames B E ws).getLast hne).found = true := by
      rw [hffd]
      refine contains_iff.2 ?_
      have heq : (frames B E ws).length - 1 + 1 = hist'.length - 1 := by omega
      rw [heq]
      exact hj₂d ▸ htj₂
    have hfoundFalse : ∀ (i : Nat) (f : BFSFrame), (frames B E ws)[i]? = some f →
        i + 1 < (frames B E ws).length → f.found = false :=
      (exhaustion_behaviour B E ws hlen).2.1
    have hfi : foundIdx (frames B E ws) = (frames B E ws).length - 1 := by
      unfold foundIdx
      rw [List.findIdx_eq (by omega)]
      constructor
      · have hg : (frames B E ws)[(frames B E ws).length - 1] =
            (frames B E ws).getLast hne := by
          have := hlastidx
          rw [List.getElem?_eq_getElem (by omega)] at this
          exact Option.some.inj this
        rw [hg, hlastfound]
      · intro m hm
        have hm1 : m + 1 < (frames B E ws).length := by omega
        have hmg : (frames B E ws)[m]? = some (frames B E ws)[m] :=
          List.getElem?_eq_getElem (by omega)
        have hff := hfoundFalse m _ hmg hm1
        simp [hff]
    refine ⟨(frames B E ws).getLast hne, List.getLast?_eq_getLast _ hne,
      hlastfound, hfi, ?_⟩
    rw [hfi, hlenq]
    omega

/-- witness for C2 at the classic example. -/
theorem minimality_witness :
    (["hit", "hot", "dot", "dog", "cog"] : List Word) ∈
        allPaths "hit" "cog" ["hot", "dot", "dog", "lot", "log", "cog"] ∧
      ∃ f, (frames "hit" "cog"
            ["hot", "dot", "dog", "lot", "log", "cog"]).getLast? = some f ∧
        f.found = true ∧
        foundIdx (frames "hit" "cog" ["hot", "dot", "dog", "lot", "log", "cog"]) =
          (frames "hit" "cog" ["hot", "dot", "dog", "lot", "log", "cog"]).length - 1 ∧
        (["hit", "hot", "dot", "dog", "cog"] : List Word).length =
          foundIdx (frames "hit" "cog"
            ["hot", "dot", "dog", "lot", "log", "cog"]) + 2 :=
  ⟨by decide, minimality "hit" "cog" ["hot", "dot", "dog", "lot", "log", "cog"]
    ["hit", "hot", "dot", "dog", "cog"] (by decide)⟩

/-! ### Walks against the levels: exact positions on a minimal walk -/

theorem mem_keys_of_parentsGet {ps : Parents} {c : Word} {v : List Word}
    (h : parentsGet ps c = some v) : c ∈ ps.map Prod.fst := by
  induction ps with
  | nil => simp [parentsGet] at h
  | cons e rest ih =>
    obtain ⟨k, l⟩ := e
    simp only [parentsGet] at h
    by_cases hk : k = c
    · simp [hk]
    · rw [if_neg hk] at h
      exact List.mem_cons_of_mem _ (ih h)

theorem chain'_drop {R : Word → Word → Prop} :
    ∀ (n : Nat) {l : List Word}, List.Chain' R l → List.Chain' R (l.drop n) := by
  intro n
  induction n with
  | zero => intro l h; exact h
  | succ n ih =>
    intro l h
    cases l with
    | nil => simp
    | cons a l =>
      rw [List.drop_succ_cons]
      exact ih h.tail

theorem gn_length {B : Word} {ws : List Word} {u v : Word}
    (h : v ∈ gnOf B ws u) : v.length = u.length := by
  unfold gnOf at h
  exact (mem_getNeighbors.1 h).2.1

theorem chain_length_const {gn : Word → List Word}
    (hgn : ∀ u v, v ∈ gn u → v.length = u.length) :
    ∀ (q : List Word) (s : Word), q.head? = some s →
      List.Chain' (fun u v => v ∈ gn u) q → ∀ x ∈ q, x.length = s.length := by
  intro q
  induction q with
  | nil =>
    intro s hs _ x hx
    cases hx
  | cons a rest ih =>
    intro s hs hchain x hx
    have ha : a = s := by
      simp only [List.head?_cons, Option.some.injEq] at hs
      exact hs
    subst ha
    rcases List.mem_cons.1 hx with rfl | hx'
    · rfl
    · cases rest with
      | nil => cases hx'
      | cons b rest' =>
        have hedge : b ∈ gn a := (List.chain'_cons.1 hchain).1
        have hbs : b.length = a.length := hgn _ _ hedge
        exact (ih b rfl (List.chain'_cons.1 hchain).2 x hx').trans hbs

/-- from the source there is a neighbor walk of length j+1 to every word of
level j, built purely from the frontier-step invariant. -/
theorem level_walk {gn : Word → List Word} {src : Word} {hist : List (List Word)}
    (hlv : LevelsOK gn src hist) :
    ∀ j, j < hist.length → ∀ c ∈ histFrontier hist j,
      ∃ r, IsLadderSeq gn src c r ∧ r.length = j + 1 := by
  intro j
  induction j with
  | zero =>
    intro hj c hc
    rw [hlv.zero] at hc
    rcases List.mem_singleton.1 hc with rfl
    exact ⟨[c], ⟨rfl, rfl, List.chain'_singleton c⟩, rfl⟩
  | succ j ih =>
    intro hj c hc
    rcases ((hlv.step j hj c).1 hc).2 with ⟨p, hpj, hpgn⟩
    rcases ih (by omega) p hpj with ⟨r, ⟨hh, hl, hch⟩, hrlen⟩
    refine ⟨r ++ [c], ⟨?_, ?_, ?_⟩, ?_⟩
    · cases r with
      | nil => exact absurd hh (by simp)
      | cons a t => simpa using hh
    · rw [List.getLast?_concat]
    · refine List.Chain'.append hch (List.chain'_singleton c) ?_
      intro u hu v hv
      rw [hl] at hu
      simp only [Option.mem_def, Option.some.injEq] at hu
      simp only [List.head?_cons, Option.mem_def, Option.some.injEq] at hv
      subst hu
      subst hv
      exact hpgn
    · rw [List.length_append, hrlen]
      rfl

/-- on a minimal-length neighbor walk from source to target, the word at
walk index i sits exactly in BFS level i. -/
theorem ladderSeq_exact_level {gn : Word → List Word} {src tgt : Word}
    {hist : List (List Word)} (hlv : LevelsOK gn src hist) (hlen0 : 0 < hist.length)
    {q : List Word} (hq : IsLadderSeq gn src tgt q)
    (hqlen : q.length = hist.length)
    (hminlen : ∀ r, IsLadderSeq gn src tgt r → hist.length ≤ r.length) :
    ∀ i x, q[i]? = some x → x ∈ histFrontier hist i := by
  obtain ⟨hhead, hlast, hchain⟩ := hq
  intro i x hx
  have hiq : i < q.length := (List.getElem?_eq_some.1 hx).1
  rcases reach_level hlv hlen0 hhead hchain i x hx with
    ⟨j, hji, hjh, hxj⟩ | ⟨i', y, hi', hy, hyl, hdl⟩
  · by_cases hij : j = i
    · exact hij ▸ hxj
    · have hjlt : j < i := by omega
      exfalso
      rcases level_walk hlv j hjh x hxj with ⟨r₁, ⟨hh₁, hl₁, hc₁⟩, hlen₁⟩
      have hlast' : q[q.length - 1]? = some tgt := by
        rw [← List.getLast?_eq_getElem?]
        exact hlast
      have hr : IsLadderSeq gn src tgt (r₁ ++ q.drop (i + 1)) := by
        refine ⟨?_, ?_, ?_⟩
        · cases r₁ with
          | nil => exact absurd hh₁ (by simp)
          | cons a t => simpa using hh₁
        · by_cases hid : i = hist.length - 1
          · have hnil : q.drop (i + 1) = [] := by
              apply List.drop_eq_nil_of_le
              omega
            rw [hnil, List.append_nil, hl₁]
            have hxt : x = tgt := by
              have h1 : q.length - 1 = i := by omega
              rw [h1, hx] at hlast'
              exact Option.some.inj hlast'
            rw [hxt]
          · have hne2 : q.drop (i + 1) ≠ [] := by
              intro hcon
              have := congrArg List.length hcon
              rw [List.length_drop] at this
              simp at this
              omega
            rw [List.getLast?_append_of_ne_nil _ hne2]
            rw [List.getLast?_eq_getElem?, List.length_drop, List.getElem?_drop]
            have harith : i + 1 + (q.length - (i + 1) - 1) = q.length - 1 := by
              omega
            rw [harith]
            exact hlast'
        · refine List.Chain'.append hc₁ (chain'_drop (i + 1) hchain) ?_
          intro u hu v hv
          rw [hl₁] at hu
          simp only [Option.mem_def, Option.some.injEq] at hu
          subst hu
          have hvh : (q.drop (i + 1)).head? = q[i + 1]? := by
            rw [List.head?_eq_getElem?, List.getElem?_drop]
          rw [hvh] at hv
          exact chain'_getElem? hchain hx hv
      have hge := hminlen _ hr
      rw [List.length_append, hlen₁, List.length_drop] at hge
      omega
  · have hid : i' = i := by omega
    rw [hid, hx] at hy
    have hxy : x = y := Option.some.inj hy
    have hieq : i = hist.length - 1 := by omega
    rw [hieq, hxy]
    exact hyl

/-! ### Full characterization of the reconstructor output -/

/-- forward half: every returned path is a minimal-length neighbor walk
from the (lowercased) begin word to the (lowercased) end word, and the two
differ. -/
theorem allPaths_forward (B E : Word) (ws : List Word) {q : List Word}
    (hq : q ∈ allPaths B E ws) :
    toLowerCase B ≠ toLowerCase E ∧
      IsLadderSeq (gnOf B ws) (toLowerCase B) (toLowerCase E) q ∧
      ∀ r, IsLadderSeq (gnOf B ws) (toLowerCase B) (toLowerCase E) r →
        q.length ≤ r.length := by
  by_cases hlen : B.length = E.length
  case neg =>
    rw [(length_mismatch_early_exit B E ws hlen).2] at hq
    cases hq
  case pos =>
  rw [allPaths_eq] at hq
  rcases finalParents_canon B E ws hlen with
    ⟨hist', hlen', hlv', htgt', hend', hsound, hcomplete⟩
  have hlen0 : 0 < hist'.length := by omega
  have hsrcnone : parentsGet (finalParents (frames B E ws)) (toLowerCase B) =
      none := by
    cases hc : parentsGet (finalParents (frames B E ws)) (toLowerCase B) with
    | none => rfl
    | some ps =>
      rcases hsound _ _ hc with ⟨j, hj0, hjh, hcm, _⟩
      have h0 : toLowerCase B ∈ histFrontier hist' 0 := by
        rw [hlv'.zero]
        simp
      exact absurd hcm (fun hcm =>
        disjoint_histFrontier hlv'.nodup hj0 hjh h0 hcm)
  cases hpg : parentsGet (finalParents (frames B E ws)) (toLowerCase E) with
  | none =>
    rw [hpg] at hq
    cases hq
  | some ps =>
    rw [hpg] at hq
    have hq' := (List.perm_insertionSort pathLe _).subset hq
    rcases dfs_sound _ _ _ _ _ (by rfl) hq' with ⟨l, hlad, hqeq⟩
    have hql : q = l := by
      rw [hqeq]
      simp
    subst hql
    have hst : toLowerCase B ≠ toLowerCase E := by
      intro hcon
      rw [← hcon, hsrcnone] at hpg
      cases hpg
    rcases hsound _ _ hpg with ⟨j₂, hj₂0, hj₂h, htj₂, _⟩
    have hj₂d : j₂ = hist'.length - 1 := by
      by_contra hcon
      exact htgt' j₂ hj₂0 (by omega) htj₂
    refine ⟨hst, ⟨Ladder.head_eq hlad, Ladder.getLast_eq hlad,
      Ladder.chain_gn hsound hlad⟩, ?_⟩
    rcases Ladder.length_level hlv'.nodup hlv'.zero hlen0 hsound hlad with
      ⟨j, hjh, htj, hlenq⟩
    have hjd : j = hist'.length - 1 :=
      (level_unique hlv'.nodup hjh hj₂h htj htj₂).trans hj₂d
    intro r hr
    have := ladderSeq_length_ge hlv' hlen0 htgt' hst r hr
    omega

/-- backward half: every minimal-length neighbor walk from the begin word
to a distinct end word is among the returned paths. -/
theorem allPaths_backward (B E : Word) (ws : List Word) {q : List Word}
    (hst : toLowerCase B ≠ toLowerCase E)
    (hq : IsLadderSeq (gnOf B ws) (toLowerCase B) (toLowerCase E) q)
    (hmin : ∀ r, IsLadderSeq (gnOf B ws) (toLowerCase B) (toLowerCase E) r →
      q.length ≤ r.length) :
    q ∈ allPaths B E ws := by
  have hlen : B.length = E.length := by
    by_contra hcon
    have hall := chain_length_const (fun u v h => gn_length h) q _ hq.1 hq.2.2
    have htin : toLowerCase E ∈ q := by
      rcases List.getElem?_eq_some.1
        (show q[q.length - 1]? = some (toLowerCase E) by
          rw [← List.getLast?_eq_getElem?]; exact hq.2.1) with ⟨h1, h2⟩
      rw [← h2]
      exact List.getElem_mem _
    have hlenBE := hall _ htin
    rw [length_toLowerCase, length_toLowerCase] at hlenBE
    exact hcon hlenBE.symm
  rcases finalParents_canon B E ws hlen with
    ⟨hist', hlen', hlv', htgt', hend', hsound, hcomplete⟩
  have hlen0 : 0 < hist'.length := by omega
  obtain ⟨htd, hd1⟩ := found_of_reachable hlv' hlen0 htgt' hend' hst hq
  rcases level_walk hlv' (hist'.length - 1) (by omega) _ htd with ⟨r₀, hr₀, hr₀len⟩
  have hqlen : q.length = hist'.length := by
    have h1 := hmin _ hr₀
    have h2 := ladderSeq_length_ge hlv' hlen0 htgt' hst q hq
    omega
  have hexact := ladderSeq_exact_level hlv' hlen0 hq hqlen
    (fun r hr => ladderSeq_length_ge hlv' hlen0 htgt' hst r hr)
  have hladder : ∀ m x, q[m]? = some x →
      Ladder (finalParents (frames B E ws)) (toLowerCase B) (q.take (m + 1)) x := by
    intro m
    induction m with
    | zero =>
      intro x hx
      have hh := hq.1
      rw [List.head?_eq_getElem?, hx] at hh
      have hxs : x = toLowerCase B := Option.some.inj hh
      have ht1 : q.take (0 + 1) = [x] := by
        rw [List.take_succ, List.take_zero, hx]
        rfl
      rw [ht1, hxs]
      exact Ladder.base
    | succ m ih =>
      intro x hx
      have hm1q : m + 1 < q.length := (List.getElem?_eq_some.1 hx).1
      have hp : q[m]? = some q[m] := List.getElem?_eq_getElem (by omega)
      have hplv := hexact m _ hp
      have hxlv := hexact (m + 1) x hx
      have hm1lt : m + 1 < hist'.length := by omega
      have hget : parentsGet (finalParents (frames B E ws)) x ≠ none :=
        hcomplete (m + 1) (by omega) hm1lt x hxlv
      cases hps : parentsGet (finalParents (frames B E ws)) x with
      | none => exact absurd hps hget
      | some ps =>
        rcases hsound _ _ hps with ⟨j, hj0, hjh, hxj, hval⟩
        have hj : j = m + 1 := level_unique hlv'.nodup hjh hm1lt hxj hxlv
        have hpmem : q[m] ∈ ps := by
          rw [hval]
          have hj1 : j - 1 = m := by omega
          rw [hj1]
          refine List.mem_filter.2 ⟨hplv, ?_⟩
          simp only [decide_eq_true_eq]
          exact chain'_getElem? hq.2.2 hp hx
        have htake : q.take (m + 1 + 1) = q.take (m + 1) ++ [x] := by
          rw [List.take_succ, hx]
          rfl
        rw [htake]
        exact Ladder.step (ih _ hp) hps hpmem
  have hlast' : q[q.length - 1]? = some (toLowerCase E) := by
    rw [← List.getLast?_eq_getElem?]
    exact hq.2.1
  have hladq : Ladder (finalParents (frames B E ws)) (toLowerCase B) q
      (toLowerCase E) := by
    have hl := hladder (q.length - 1) _ hlast'
    have harith : q.length - 1 + 1 = q.length := by omega
    rw [harith, List.take_length] at hl
    exact hl
  have hK : ∀ k, k < hist'.length - 1 →
      q.getD (k + 1) "" ∈ (finalParents (frames B E ws)).map Prod.fst ∧
        q.getD (k + 1) "" ∈ histFrontier hist' (k + 1) := by
    intro k hk
    have hk1 : k + 1 < q.length := by omega
    have hgd : q.getD (k + 1) "" = q[k + 1] := by
      rw [List.getD_eq_getElem?_getD, List.getElem?_eq_getElem hk1]
      rfl
    have hqk : q[k + 1]? = some q[k + 1] := List.getElem?_eq_getElem hk1
    have hlvk := hexact (k + 1) _ hqk
    refine ⟨?_, by rw [hgd]; exact hlvk⟩
    have hgetk : parentsGet (finalParents (frames B E ws)) q[k + 1] ≠ none :=
      hcomplete (k + 1) (by omega) (by omega) _ hlvk
    cases hc2 : parentsGet (finalParents (frames B E ws)) q[k + 1] with
    | none => exact absurd hc2 hgetk
    | some v =>
      rw [hgd]
      exact mem_keys_of_parentsGet hc2
  have hKnodup : ((List.range (hist'.length - 1)).map
      (fun k => q.getD (k + 1) "")).Nodup := by
    refine List.Nodup.map_on ?_ (List.nodup_range _)
    intro k₁ h₁ k₂ h₂ heq
    have h₁' := (hK k₁ (List.mem_range.1 h₁)).2
    have h₂' := (hK k₂ (List.mem_range.1 h₂)).2
    rw [heq] at h₁'
    have := level_unique hlv'.nodup
      (show k₂ + 1 < hist'.length by have := List.mem_range.1 h₂; omega)
      (show k₁ + 1 < hist'.length by have := List.mem_range.1 h₁; omega) h₂' h₁'
    omega
  have hKsub : ∀ x ∈ (List.range (hist'.length - 1)).map
      (fun k => q.getD (k + 1) ""), x ∈ (finalParents (frames B E ws)).map Prod.fst := by
    intro x hx
    rcases List.mem_map.1 hx with ⟨k, hk, rfl⟩
    exact (hK k (List.mem_range.1 hk)).1
  have hlenle := (List.subperm_of_subset hKnodup hKsub).length_le
  rw [List.length_map, List.length_range, List.length_map] at hlenle
  have hsrcnone : parentsGet (finalParents (frames B E ws)) (toLowerCase B) =
      none := by
    cases hc : parentsGet (finalParents (frames B E ws)) (toLowerCase B) with
    | none => rfl
    | some ps =>
      rcases hsound _ _ hc with ⟨j, hj0, hjh, hcm, _⟩
      have h0 : toLowerCase B ∈ histFrontier hist' 0 := by
        rw [hlv'.zero]
        simp
      exact absurd hcm (fun hcm =>
        disjoint_histFrontier hlv'.nodup hj0 hjh h0 hcm)
  have hfuel : hist'.length - 1 + 1 ≤ dfsBound (finalParents (frames B E ws)) := by
    unfold dfsBound
    omega
  have hdfs := dfs_complete hlv'.nodup hsound hsrcnone
    (dfsBound (finalParents (frames B E ws))) [toLowerCase E] [toLowerCase E]
    (toLowerCase E) q (hist'.length - 1) hladq rfl (by omega) htd hfuel
    (fun x hx => by
      rcases List.mem_singleton.1 hx with rfl
      exact ⟨hist'.length - 1, by omega, htd, le_refl _⟩)
  have hdfs' : q ∈ dfs (finalParents (frames B E ws)) (toLowerCase B)
      (dfsBound (finalParents (frames B E ws))) [toLowerCase E] [toLowerCase E]
      (toLowerCase E) := by
    simpa using hdfs
  rw [allPaths_eq]
  have hpgt : parentsGet (finalParents (frames B E ws)) (toLowerCase E) ≠ none :=
    hcomplete (hist'.length - 1) (by omega) (by omega) _ htd
  cases hpg : parentsGet (finalParents (frames B E ws)) (toLowerCase E) with
  | none => exact absurd hpg hpgt
  | some ps =>
    exact ((List.perm_insertionSort pathLe _).mem_iff).2 hdfs'

/-- the reconstructor returns exactly the minimal-length neighbor walks
from the lowercased begin word to the (distinct) lowercased end word. -/
theorem mem_allPaths_iff (B E : Word) (ws : List Word) (q : List Word) :
    q ∈ allPaths B E ws ↔
      (toLowerCase B ≠ toLowerCase E ∧
        IsLadderSeq (gnOf B ws) (toLowerCase B) (toLowerCase E) q ∧
        ∀ r, IsLadderSeq (gnOf B ws) (toLowerCase B) (toLowerCase E) r →
          q.length ≤ r.length) :=
  ⟨fun h => allPaths_forward B E ws h,
    fun ⟨hst, hq, hmin⟩ => allPaths_backward B E ws hst hq hmin⟩

/-! ### Bridging spec transformation steps and engine neighbor edges -/

theorem string_eq_of_data {s t : Word} (h : s.data = t.data) : s = t := by
  cases s
  cases t
  exact congrArg String.mk h

theorem patternKey_eq_of_agree {u v : Word} (hlen : u.data.length = v.data.length)
    {i : Nat} (hi : i < u.data.length)
    (hagree : ∀ j < u.data.length, j ≠ i → u.data[j]? = v.data[j]?) :
    patternKey u i = patternKey v i := by
  apply string_eq_of_data
  apply List.ext_getElem?
  intro m
  rw [patternKey_getElem u hi, patternKey_getElem v (hlen ▸ hi)]
  by_cases hmi : m = i
  · rw [if_pos hmi, if_pos hmi]
  · rw [if_neg hmi, if_neg hmi]
    by_cases hml : m < u.data.length
    · exact hagree m hml hmi
    · rw [List.getElem?_eq_none (by omega), List.getElem?_eq_none (by omega)]

/-- a spec transformation step into a dictionary word is an engine
neighbor edge. -/
theorem mem_gn_of_specStep {B : Word} {ws : List Word} {u v : Word}
    (hv : v ∈ ws) (hulen : u.data.length = B.length)
    (hstep : SpecStep u v) : v ∈ gnOf B ws u := by
  obtain ⟨hlen, i, hi, hdiff, hagree⟩ := hstep
  unfold gnOf
  rw [mem_getNeighbors]
  have hvu : v ≠ u := by
    intro hcon
    rw [hcon] at hdiff
    exact hdiff rfl
  have hvlen : v.data.length = u.data.length := hlen.symm
  have hvB : v.length = B.length := by
    show v.data.length = B.length
    omega
  refine ⟨hvu, hvlen, i, by omega, ?_⟩
  rw [mem_bucketsGet_patternBuckets]
  exact ⟨Or.inl ⟨hv, hvB⟩, i, by omega,
    patternKey_eq_of_agree hlen hi hagree⟩

/-- an engine neighbor edge into a wildcard-free word is a spec
transformation step. -/
theorem specStep_of_mem_gn {B : Word} {ws : List Word} {u v : Word}
    (hstarv : star ∉ v.data) (hulen : u.data.length = B.length)
    (h : v ∈ gnOf B ws u) : SpecStep u v := by
  unfold gnOf at h
  rw [mem_getNeighbors] at h
  obtain ⟨hvu, hvlen, i, hiL, hbk⟩ := h
  rw [mem_bucketsGet_patternBuckets] at hbk
  obtain ⟨_, i', hi'L, hkey⟩ := hbk
  have hvdlen : v.data.length = u.data.length := hvlen
  have hiu : i < u.data.length := by omega
  have hi'v : i' < v.data.length := by omega
  have hii' : i' = i := by
    by_contra hne
    have h1 := patternKey_getElem u hiu i
    have h2 := patternKey_getElem v hi'v i
    rw [hkey] at h1
    rw [h2] at h1
    rw [if_neg (fun hcon => hne hcon.symm)] at h1
    rw [if_pos rfl] at h1
    rcases List.getElem?_eq_some.1 h1 with ⟨hlt, he⟩
    exact hstarv (he ▸ List.getElem_mem _)
  subst hii'
  have hagree : ∀ j, j ≠ i' → u.data[j]? = v.data[j]? := by
    intro j hj
    have h1 := patternKey_getElem u hiu j
    have h2 := patternKey_getElem v hi'v j
    rw [hkey] at h1
    rw [h2] at h1
    rw [if_neg hj] at h1
    rw [if_neg hj] at h1
    exact h1.symm
  have hdiff : u.data[i']? ≠ v.data[i']? := by
    intro hcon
    apply hvu
    apply string_eq_of_data
    apply List.ext_getElem?
    intro m
    by_cases hmi : m = i'
    · rw [hmi]
      exact hcon.symm
    · exact (hagree m hmi).symm
  exact ⟨hvdlen.symm, i', hiu, hdiff, fun j _ hj => hagree j hj⟩

theorem specChain_length :
    ∀ (q : List Word) (s : Word), q.head? = some s →
      List.Chain' SpecStep q → ∀ x ∈ q, x.data.length = s.data.length := by
  intro q
  induction q with
  | nil =>
    intro s hs _ x hx
    cases hx
  | cons a rest ih =>
    intro s hs hchain x hx
    have ha : a = s := by
      simp only [List.head?_cons, Option.some.injEq] at hs
      exact hs
    subst ha
    rcases List.mem_cons.1 hx with rfl | hx'
    · rfl
    · cases rest with
      | nil => cases hx'
      | cons b rest' =>
        have hedge : SpecStep a b := (List.chain'_cons.1 hchain).1
        exact (ih b rfl (List.chain'_cons.1 hchain).2 x hx').trans hedge.1.symm

theorem mem_tail_of_getElem? {l : List Word} {i : Nat} {x : Word}
    (h : l[i + 1]? = some x) : x ∈ l.tail := by
  have h1 : l.tail[i]? = some x := by
    rw [← List.drop_one, List.getElem?_drop]
    have hc : 1 + i = i + 1 := Nat.add_comm 1 i
    rw [hc]
    exact h
  rcases List.getElem?_eq_some.1 h1 with ⟨hlt, he⟩
  rw [← he]
  exact List.getElem_mem _

theorem getElem?_of_mem_tail {l : List Word} {x : Word} (h : x ∈ l.tail) :
    ∃ i, l[i + 1]? = some x := by
  rcases List.mem_iff_getElem?.1 h with ⟨i, hi⟩
  refine ⟨i, ?_⟩
  rw [← List.drop_one, List.getElem?_drop] at hi
  have hc : 1 + i = i + 1 := Nat.add_comm 1 i
  rw [hc] at hi
  exact hi

/-- every spec transformation sequence is a walk of the engine's neighbor
relation. -/
theorem specSeq_to_ladderSeq {B E : Word} {ws : List Word} {P : List Word}
    (hP : SpecSeq B E ws P) : IsLadderSeq (gnOf B ws) B E P := by
  obtain ⟨hhead, hlast, hchain, htail⟩ := hP
  refine ⟨hhead, hlast, ?_⟩
  have hall : ∀ x ∈ P, x.data.length = B.data.length :=
    specChain_length P _ hhead hchain
  rw [List.chain'_iff_get]
  intro i hi
  simp only [List.get_eq_getElem]
  have hiq : i < P.length := by omega
  have hi1q : i + 1 < P.length := by omega
  have hu : P[i]? = some P[i] := List.getElem?_eq_getElem hiq
  have hv : P[i + 1]? = some P[i + 1] := List.getElem?_eq_getElem hi1q
  have hstep : SpecStep P[i] P[i + 1] := chain'_getElem? hchain hu hv
  have hvtail : P[i + 1] ∈ P.tail := mem_tail_of_getElem? hv
  exact mem_gn_of_specStep (htail _ hvtail) (hall _ (List.getElem_mem _)) hstep

/-- a walk of the engine's neighbor relation whose tail stays in the
(wildcard-free) dictionary is a spec transformation sequence. -/
theorem ladderSeq_to_specSeq {B E : Word} {ws : List Word} {q : List Word}
    (hstarD : ∀ w ∈ ws, star ∉ w.data)
    (hq : IsLadderSeq (gnOf B ws) B E q)
    (htailws : ∀ x ∈ q.tail, x ∈ ws) : SpecSeq B E ws q := by
  obtain ⟨hh, hl, hc⟩ := hq
  refine ⟨hh, hl, ?_, htailws⟩
  have hall : ∀ x ∈ q, x.length = B.length :=
    chain_length_const (fun u v h => gn_length h) q _ hh hc
  rw [List.chain'_iff_get]
  intro i hi
  simp only [List.get_eq_getElem]
  have hiq : i < q.length := by omega
  have hi1q : i + 1 < q.length := by omega
  have hu : q[i]? = some q[i] := List.getElem?_eq_getElem hiq
  have hv : q[i + 1]? = some q[i + 1] := List.getElem?_eq_getElem hi1q
  have hedge : q[i + 1] ∈ gnOf B ws q[i] := chain'_getElem? hc hu hv
  have hvtail : q[i + 1] ∈ q.tail := mem_tail_of_getElem? hv
  exact specStep_of_mem_gn (hstarD _ (htailws _ hvtail))
    (hall _ (List.getElem_mem _)) hedge

/-- the source word never occurs past the head of a backtracking chain
(it has no parents entry). -/
theorem ladder_src_not_tail {parents : Parents} {src : Word}
    (hsrc : parentsGet parents src = none) :
    ∀ {l w}, Ladder parents src l w → src ∉ l.tail := by
  intro l w hlad
  induction hlad with
  | base => simp
  | step hlad' hget hp ih =>
    rename_i l' p c ps
    have hl'ne : l' ≠ [] := by
      intro hcon
      have hh := Ladder.head_eq hlad'
      rw [hcon] at hh
      cases hh
    have htail : (l' ++ [c]).tail = l'.tail ++ [c] := by
      cases l' with
      | nil => exact absurd rfl hl'ne
      | cons a t => rfl
    rw [htail]
    intro hmem
    rcases List.mem_append.1 hmem with h | h
    · exact ih h
    · rcases List.mem_singleton.1 h with rfl
      rw [hsrc] at hget
      cases hget

/-- the begin word has no entry in the final parents map. -/
theorem finalParents_src_none (B E : Word) (ws : List Word) :
    parentsGet (finalParents (frames B E ws)) (toLowerCase B) = none := by
  by_cases hlen : B.length = E.length
  case neg =>
    rw [frames_of_length_mismatch ws hlen]
    rfl
  case pos =>
  rcases finalParents_canon B E ws hlen with
    ⟨hist', _, hlv', _, _, hsound, _⟩
  cases hc : parentsGet (finalParents (frames B E ws)) (toLowerCase B) with
  | none => rfl
  | some ps =>
    rcases hsound _ _ hc with ⟨j, hj0, hjh, hcm, _⟩
    have h0 : toLowerCase B ∈ histFrontier hist' 0 := by
      rw [hlv'.zero]
      simp
    exact absurd hcm (fun hcm =>
      disjoint_histFrontier hlv'.nodup hj0 hjh h0 hcm)

/-! ### C1: completeness of path enumeration -/

/-- counterexample to C1 as stated: with B = E = "hot" and dictionary
{hot}, the one-word sequence [hot] is a shortest transformation sequence
from B to E (B and E are trivially reachable and of equal length), yet the
reconstructor's output is empty, so [hot] does not appear in it. -/
theorem completeness_counterexample :
    SpecSeq "hot" "hot" ["hot"] ["hot"] ∧
      (∀ Q, SpecSeq "hot" "hot" ["hot"] Q →
        (["hot"] : List Word).length ≤ Q.length) ∧
      (["hot"] : List Word) ∉ allPaths "hot" "hot" ["hot"] := by
  refine ⟨⟨rfl, rfl, List.chain'_singleton _, ?_⟩, ?_, ?_⟩
  · intro w hw
    cases hw
  · intro Q hQ
    obtain ⟨hh, _, _, _⟩ := hQ
    cases Q with
    | nil => cases hh
    | cons a t => simp
  · have hempty : allPaths "hot" "hot" ["hot"] = [] := by decide
    rw [hempty]
    simp

/-- C1 (amended): for already-normalized inputs (lowercase begin and end
words, wildcard-free dictionary) with B ≠ E, every shortest transformation
sequence P from B to E (each step changing exactly one letter, every word
after the first in the dictionary) appears in the reconstructor's output;
and on scenario 1 the output is exactly the two length-5 paths. -/
theorem completeness (B E : Word) (ws : List Word) (P : List Word)
    (hlowB : toLowerCase B = B) (hlowE : toLowerCase E = E)
    (hstarD : ∀ w ∈ ws, star ∉ w.data)
    (hBE : B ≠ E) (hP : SpecSeq B E ws P)
    (hmin : ∀ Q, SpecSeq B E ws Q → P.length ≤ Q.length) :
    P ∈ allPaths B E ws ∧
      allPaths "hit" "cog" ["hot", "dot", "dog", "lot", "log", "cog"] =
        [["hit", "hot", "dot", "dog", "cog"], ["hit", "hot", "lot", "log", "cog"]] := by
  refine ⟨?_, by decide⟩
  rw [mem_allPaths_iff, hlowB, hlowE]
  have hlad := specSeq_to_ladderSeq hP
  refine ⟨hBE, hlad, ?_⟩
  intro r hr
  have hlen : B.length = E.length := by
    have hall := chain_length_const (fun u v h => gn_length h) P _ hlad.1 hlad.2.2
    have hEin : E ∈ P := by
      rcases List.getElem?_eq_some.1 (show P[P.length - 1]? = some E by
        rw [← List.getLast?_eq_getElem?]
        exact hlad.2.1) with ⟨h1, h2⟩
      rw [← h2]
      exact List.getElem_mem _
    exact (hall _ hEin).symm
  rcases finalParents_canon B E ws hlen with
    ⟨hist', hlen', hlv', htgt', hend', hsound, hcomplete⟩
  have hlen0 : 0 < hist'.length := by omega
  have hst : toLowerCase B ≠ toLowerCase E := by
    rw [hlowB, hlowE]
    exact hBE
  have hlad' : IsLadderSeq (gnOf B ws) (toLowerCase B) (toLowerCase E) P := by
    rw [hlowB, hlowE]
    exact hlad
  obtain ⟨htd, hd1⟩ := found_of_reachable hlv' hlen0 htgt' hend' hst hlad'
  rcases ladder_exists hlv'.nodup hlv'.zero hlv'.step hsound hcomplete
    (hist'.length - 1) (by omega) _ htd with ⟨l, hlEngine, hlEnglen⟩
  have hsrcnone := finalParents_src_none B E ws
  have hlchain := Ladder.chain_gn hsound hlEngine
  have hltail : ∀ x ∈ l.tail, x ∈ ws := by
    intro x hx
    rcases getElem?_of_mem_tail hx with ⟨i, hi⟩
    have hiq : i < l.length := by
      have := (List.getElem?_eq_some.1 hi).1
      omega
    have hu : l[i]? = some l[i] := List.getElem?_eq_getElem hiq
    have hedge : x ∈ gnOf B ws l[i] := chain'_getElem? hlchain hu hi
    rcases List.mem_append.1 (gnOf_mem_universe B ws _ _ hedge) with h | h
    · exact h
    · exfalso
      rcases List.mem_singleton.1 h with rfl
      exact ladder_src_not_tail hsrcnone hlEngine hx
  have hlspec : SpecSeq B E ws l := by
    apply ladderSeq_to_specSeq hstarD ?_ hltail
    have hls : IsLadderSeq (gnOf B ws) (toLowerCase B) (toLowerCase E) l :=
      ⟨Ladder.head_eq hlEngine, Ladder.getLast_eq hlEngine, hlchain⟩
    rw [hlowB, hlowE] at hls
    exact hls
  have h1 := hmin l hlspec
  have hr' : IsLadderSeq (gnOf B ws) (toLowerCase B) (toLowerCase E) r := by
    rw [hlowB, hlowE]
    exact hr
  have h2 := ladderSeq_length_ge hlv' hlen0 htgt' hst r hr'
  omega

/-- witness for C1 (amended) at scenario 1. -/
theorem completeness_witness :
    (["hit", "hot", "dot", "dog", "cog"] : List Word) ∈
        allPaths "hit" "cog" ["hot", "dot", "dog", "lot", "log", "cog"] ∧
      allPaths "hit" "cog" ["hot", "dot", "dog", "lot", "log", "cog"] =
        [["hit", "hot", "dot", "dog", "cog"], ["hit", "hot", "lot", "log", "cog"]] :=
  completeness "hit" "cog" ["hot", "dot", "dog", "lot", "log", "cog"]
    ["hit", "hot", "dot", "dog", "cog"] (by decide) (by decide) (by decide)
    (by decide)
    (by
      refine ⟨rfl, rfl, ?_, by decide⟩
      refine List.chain'_cons.2 ⟨⟨by decide, 1, by decide, by decide, by decide⟩, ?_⟩
      refine List.chain'_cons.2 ⟨⟨by decide, 0, by decide, by decide, by decide⟩, ?_⟩
      refine List.chain'_cons.2 ⟨⟨by decide, 2, by decide, by decide, by decide⟩, ?_⟩
      refine List.chain'_cons.2 ⟨⟨by decide, 0, by decide, by decide, by decide⟩, ?_⟩
      exact List.chain'_singleton _)
    (fun Q hQ => by
      have hlq := specSeq_to_ladderSeq hQ
      rcases frames_spec "hit" "cog" ["hot", "dot", "dog", "lot", "log", "cog"]
        (by decide) with ⟨hist', hlen', hlv', hfs', htgt', hend'⟩
      have hst : toLowerCase "hit" ≠ toLowerCase "cog" := by decide
      have hlq' : IsLadderSeq (gnOf "hit" ["hot", "dot", "dog", "lot", "log", "cog"])
          (toLowerCase "hit") (toLowerCase "cog") Q := by
        have h1 : toLowerCase "hit" = "hit" := by decide
        have h2 : toLowerCase "cog" = "cog" := by decide
        rw [h1, h2]
        exact hlq
      have hge := ladderSeq_length_ge hlv' (by omega) htgt' hst Q hlq'
      have hfl : (frames "hit" "cog" ["hot", "dot", "dog", "lot", "log", "cog"]).length
          = 4 := by decide
      have hP5 : (["hit", "hot", "dot", "dog", "cog"] : List Word).length = 5 := rfl
      omega)

/-! ### C4: sortedness and determinism of the output -/

theorem lexLe_refl : ∀ xs : List Char, lexLe xs xs = true := by
  intro xs
  induction xs with
  | nil => rfl
  | cons a as ih => simp [lexLe, ih]

theorem lexLe_total : ∀ xs ys : List Char,
    lexLe xs ys = true ∨ lexLe ys xs = true := by
  intro xs
  induction xs with
  | nil =>
    intro ys
    left
    rfl
  | cons a as ih =>
    intro ys
    cases ys with
    | nil =>
      right
      rfl
    | cons b bs =>
      by_cases hab : a = b
      · subst hab
        simp only [lexLe, if_pos rfl]
        exact ih bs
      · rcases lt_or_gt_of_ne hab with h | h
        · left
          simp [lexLe, hab, h]
        · right
          simp only [lexLe]
          rw [if_neg (fun hc => hab hc.symm)]
          exact decide_eq_true h

theorem lexLe_trans : ∀ xs ys zs : List Char,
    lexLe xs ys = true → lexLe ys zs = true → lexLe xs zs = true := by
  intro xs
  induction xs with
  | nil =>
    intro ys zs _ _
    rfl
  | cons a as ih =>
    intro ys zs h1 h2
    cases ys with
    | nil => simp [lexLe] at h1
    | cons b bs =>
      cases zs with
      | nil => simp [lexLe] at h2
      | cons c cs =>
        simp only [lexLe] at h1 h2 ⊢
        by_cases hab : a = b
        · subst hab
          rw [if_pos rfl] at h1
          by_cases hbc : a = c
          · subst hbc
            rw [if_pos rfl] at h2
            rw [if_pos rfl]
            exact ih bs cs h1 h2
          · rw [if_neg hbc] at h2
            rw [if_neg hbc]
            exact h2
        · rw [if_neg hab] at h1
          by_cases hbc : b = c
          · subst hbc
            rw [if_neg hab]
            exact h1
          · rw [if_neg hbc] at h2
            have h1' : a < b := of_decide_eq_true h1
            have h2' : b < c := of_decide_eq_true h2
            have hac : a < c := lt_trans h1' h2'
            have hane : ¬a = c := fun hc => absurd (hc ▸ hac) (lt_irrefl _)
            rw [if_neg hane]
            exact decide_eq_true hac

theorem lexLe_antisymm : ∀ xs ys : List Char,
    lexLe xs ys = true → lexLe ys xs = true → xs = ys := by
  intro xs
  induction xs with
  | nil =>
    intro ys h1 h2
    cases ys with
    | nil => rfl
    | cons b bs => simp [lexLe] at h2
  | cons a as ih =>
    intro ys h1 h2
    cases ys with
    | nil => simp [lexLe] at h1
    | cons b bs =>
      simp only [lexLe] at h1 h2
      by_cases hab : a = b
      · subst hab
        rw [if_pos rfl] at h1 h2
        rw [ih bs h1 h2]
      · rw [if_neg hab] at h1
        rw [if_neg (fun hc => hab hc.symm)] at h2
        have h1' : a < b := of_decide_eq_true h1
        have h2' : b < a := of_decide_eq_true h2
        exact absurd h2' (lt_asymm h1')

instance : IsTotal (List Word) pathLe :=
  ⟨fun a b => lexLe_total (joinArrow a) (joinArrow b)⟩

instance : IsTrans (List Word) pathLe :=
  ⟨fun a b c h1 h2 => lexLe_trans (joinArrow a) (joinArrow b) (joinArrow c) h1 h2⟩

/-- the joined sort key determines the path, once the word count and the
common word length are fixed. -/
theorem joinArrow_inj {L : Nat} :
    ∀ (a b : List Word), a.length = b.length →
      (∀ w ∈ a, w.data.length = L) → (∀ w ∈ b, w.data.length = L) →
      joinArrow a = joinArrow b → a = b := by
  intro a
  induction a with
  | nil =>
    intro b hlen _ _ _
    cases b with
    | nil => rfl
    | cons x xs => simp at hlen
  | cons w a' ih =>
    intro b hlen ha hb hj
    cases b with
    | nil => simp at hlen
    | cons x b' =>
      cases a' with
      | nil =>
        cases b' with
        | nil =>
          simp only [joinArrow] at hj
          rw [string_eq_of_data hj]
        | cons y b'' => simp at hlen
      | cons w₂ a'' =>
        cases b' with
        | nil => simp at hlen
        | cons x₂ b'' =>
          simp only [joinArrow] at hj
          have hwlen : w.data.length = x.data.length := by
            rw [ha w (by simp), hb x (by simp)]
          rcases List.append_inj hj hwlen with ⟨hw, htail⟩
          have hj' : joinArrow (w₂ :: a'') = joinArrow (x₂ :: b'') := by
            simpa using htail
          have hrec := ih (x₂ :: b'') (by simpa using hlen)
            (fun y hy => ha y (List.mem_cons_of_mem _ hy))
            (fun y hy => hb y (List.mem_cons_of_mem _ hy)) hj'
          rw [string_eq_of_data hw, hrec]

/-- two sorted lists with the same members are equal when the sort key is
injective on those members (paths here can share a key only by being the
same path). -/
theorem sorted_perm_inj_eq :
    ∀ {l₁ l₂ : List (List Word)}, l₁.Perm l₂ →
      l₁.Sorted pathLe → l₂.Sorted pathLe →
      (∀ a ∈ l₁, ∀ b ∈ l₁, joinArrow a = joinArrow b → a = b) →
      l₁ = l₂ := by
  intro l₁
  induction l₁ with
  | nil =>
    intro l₂ hp _ _ _
    exact hp.nil_eq
  | cons a t₁ ih =>
    intro l₂ hp hs₁ hs₂ hinj
    cases l₂ with
    | nil =>
      have := hp.length_eq
      simp at this
    | cons b t₂ =>
      have hbmem : b ∈ a :: t₁ := hp.mem_iff.2 (by simp)
      have h₁ : pathLe a b := by
        rcases List.mem_cons.1 hbmem with rfl | hb
        · exact lexLe_refl _
        · exact (List.sorted_cons.1 hs₁).1 b hb
      have hamem : a ∈ b :: t₂ := hp.mem_iff.1 (by simp)
      have h₂ : pathLe b a := by
        rcases List.mem_cons.1 hamem with rfl | haa
        · exact lexLe_refl _
        · exact (List.sorted_cons.1 hs₂).1 a haa
      have hab : a = b := hinj a (by simp) b hbmem (lexLe_antisymm _ _ h₁ h₂)
      subst hab
      have hp' : t₁.Perm t₂ := hp.cons_inv
      have ht := ih hp' (List.sorted_cons.1 hs₁).2 (List.sorted_cons.1 hs₂).2
        (fun x hx y hy h =>
          hinj x (List.mem_cons_of_mem _ hx) y (List.mem_cons_of_mem _ hy) h)
      rw [ht]

/-- the joined key is injective on the reconstructor's output: all output
paths have the same word count and a common word length. -/
theorem allPaths_key_inj (B E : Word) (ws : List Word) :
    ∀ a ∈ allPaths B E ws, ∀ b ∈ allPaths B E ws,
      joinArrow a = joinArrow b → a = b := by
  intro a ha b hb hj
  have hfa := allPaths_forward B E ws ha
  have hfb := allPaths_forward B E ws hb
  have hlen : a.length = b.length :=
    le_antisymm (hfa.2.2 b hfb.2.1) (hfb.2.2 a hfa.2.1)
  have hwa : ∀ w ∈ a, w.data.length = (toLowerCase B).data.length :=
    fun w hw =>
      chain_length_const (fun u v h => gn_length h) a _ hfa.2.1.1 hfa.2.1.2.2 w hw
  have hwb : ∀ w ∈ b, w.data.length = (toLowerCase B).data.length :=
    fun w hw =>
      chain_length_const (fun u v h => gn_length h) b _ hfb.2.1.1 hfb.2.1.2.2 w hw
  exact joinArrow_inj a b hlen hwa hwb hj

theorem allPaths_nodup (B E : Word) (ws : List Word) : (allPaths B E ws).Nodup := by
  by_cases hlen : B.length = E.length
  case neg =>
    rw [(length_mismatch_early_exit B E ws hlen).2]
    exact List.nodup_nil
  case pos =>
  rw [allPaths_eq]
  cases hpg : parentsGet (finalParents (frames B E ws)) (toLowerCase E) with
  | none => exact List.nodup_nil
  | some ps =>
    rcases finalParents_canon B E ws hlen with ⟨hist', _, hlv', _, _, hsound, _⟩
    have hdn := @dfs_nodup (finalParents (frames B E ws)) (toLowerCase B)
      (gnOf B ws) hist' hlv'.nodup hsound (dfsBound (finalParents (frames B E ws)))
      [toLowerCase E] [toLowerCase E] (toLowerCase E)
    exact ((List.perm_insertionSort pathLe _).nodup_iff).2 hdn

/-- an engine neighbor edge depends on the dictionary only through
membership, so it is stable under reordering the dictionary. -/
theorem gn_mem_of_perm {B : Word} {ws ws' : List Word} (hperm : ws.Perm ws')
    {u v : Word} : v ∈ gnOf B ws u ↔ v ∈ gnOf B ws' u := by
  unfold gnOf
  simp only [mem_getNeighbors, mem_bucketsGet_patternBuckets, hperm.mem_iff]

theorem ladderSeq_of_perm {B : Word} {ws ws' : List Word} (hperm : ws.Perm ws')
    {src tgt : Word} {q : List Word} :
    IsLadderSeq (gnOf B ws) src tgt q ↔ IsLadderSeq (gnOf B ws') src tgt q := by
  have hrel : (fun u v => v ∈ gnOf B ws u) = (fun u v => v ∈ gnOf B ws' u) := by
    funext u v
    exact propext (gn_mem_of_perm hperm)
  unfold IsLadderSeq
  rw [hrel]

/-- C4: the reconstructor output is sorted by the joined-key order (the
`join("->")` lexicographic comparison), and reordering the dictionary in
any way leaves the output list identical, so repeated runs on identical
inputs produce the identical sorted path list. -/
theorem determinism (B E : Word) (ws ws' : List Word) (hperm : ws.Perm ws') :
    (allPaths B E ws).Sorted pathLe ∧ allPaths B E ws = allPaths B E ws' := by
  have hsorted : ∀ d : List Word, (allPaths B E d).Sorted pathLe := by
    intro d
    by_cases hlen : B.length = E.length
    case neg =>
      rw [(length_mismatch_early_exit B E d hlen).2]
      exact List.sorted_nil
    case pos =>
      rw [allPaths_eq]
      cases hpg : parentsGet (finalParents (frames B E d)) (toLowerCase E) with
      | none => exact List.sorted_nil
      | some ps => exact List.sorted_insertionSort pathLe _
  refine ⟨hsorted ws, ?_⟩
  apply sorted_perm_inj_eq ?_ (hsorted ws) (hsorted ws') (allPaths_key_inj B E ws)
  rw [List.perm_ext_iff_of_nodup (allPaths_nodup B E ws) (allPaths_nodup B E ws')]
  intro q
  rw [mem_allPaths_iff, mem_allPaths_iff]
  constructor
  · rintro ⟨hst, hq, hmin⟩
    exact ⟨hst, (ladderSeq_of_perm hperm).1 hq,
      fun r hr => hmin r ((ladderSeq_of_perm hperm).2 hr)⟩
  · rintro ⟨hst, hq, hmin⟩
    exact ⟨hst, (ladderSeq_of_perm hperm).2 hq,
      fun r hr => hmin r ((ladderSeq_of_perm hperm).1 hr)⟩

/-- witness for C4: scenario 1 dictionary against its reversal. -/
theorem determinism_witness :
    (["hot", "dot", "dog", "lot", "log", "cog"] : List Word).Perm
        ["cog", "log", "lot", "dog", "dot", "hot"] ∧
      ((allPaths "hit" "cog" ["hot", "dot", "dog", "lot", "log", "cog"]).Sorted
          pathLe ∧
        allPaths "hit" "cog" ["hot", "dot", "dog", "lot", "log", "cog"] =
          allPaths "hit" "cog" ["cog", "log", "lot", "dog", "dot", "hot"]) :=
  ⟨by decide, determinism "hit" "cog" ["hot", "dot", "dog", "lot", "log", "cog"]
    ["cog", "log", "lot", "dog", "dot", "hot"] (by decide)⟩

end WordLadder
